import Mathlib

/-!
Shallow embedding of the Bus lazy-cache controller (src/static_frame/core/bus.py)
and of the relational (SQLite) store backend (src/static_frame/core/store_sqlite.py).

The `Frame`, `Series`/`Index` (ordered label map) and `Store` base classes are
external collaborators of the two embedded modules; where their behaviour is
needed it is modelled from the specification (each such definition is marked).
Mutable Python state becomes explicit state passing: every operation takes a
`Bus` and returns a new one, and the operations that can raise return an
error value carrying the post-failure state (the Python code mutates
`self._loaded` / `self._last_accessed` in place, so those mutations survive an
exception, while the new values array is only published at the very end).
-/

namespace SF

/-- Modelled from the spec: a Dataset (Frame) is an immutable named table,
opaque to the cache beyond shape, byte size, dtype description and structural
equality. -/
structure Frame where
  fid : Nat
  name : String := ""
  nbytes : Nat := 0
  shape : Nat × Nat := (0, 0)
  dtypes : List String := []
  deriving DecidableEq, Repr

/-- The slot tagged union: `FrameDeferred` sentinel or a loaded `Frame`
(bus.py `FrameDeferred`, compared by identity only, never structurally equal
to a Frame). -/
inductive Slot where
  | deferred
  | loaded (f : Frame)
  deriving DecidableEq, Repr

def Slot.isLoaded : Slot → Bool
  | .deferred => false
  | .loaded _ => true

/-- A value supplied as an index label at Bus construction: Python is untyped,
so a label may fail the `isinstance(label, str)` check in `Bus.__init__`. -/
inductive PyLabel where
  | str (s : String)
  | intL (n : Int)
  | otherL (descr : String)
  deriving DecidableEq, Repr

def PyLabel.isStr : PyLabel → Bool
  | .str _ => true
  | _ => false

/-- A value supplied in the series at Bus construction: a `Frame`, the
`FrameDeferred` sentinel, or something else (rejected by `Bus.__init__`). -/
inductive PyVal where
  | frame (f : Frame)
  | deferredMarker
  | otherV (cls : String)
  deriving DecidableEq, Repr

/-- The errors the embedded operations can raise. -/
inductive BusErr where
  | noStore                        -- RuntimeError('no store defined')
  | readFail (label : String)      -- Store.read lookup failure, propagated
  | keyErr (label : String)        -- label lookup failure in loc selection
  | attrErr                        -- FrameDeferred.equals: missing attribute
  | dupLabels                      -- index collaborator rejects duplicate labels
  | initLabelNotString (l : PyLabel)   -- ErrorInitBus naming the label
  | initValNotFrame (cls : String)     -- ErrorInitBus naming the value class
  | initCeilingTooLow                  -- ErrorInitBus: max_persist < loaded count
  deriving DecidableEq, Repr

/-- A store backend read function: label and per-label config to an optional
Frame (`none` models the lookup error raised for an unknown label). -/
abbrev StoreRead := String → Nat → Option Frame

/-- The Bus cache controller state (bus.py `Bus.__slots__`):
labels/slots embed `self._series` (ordered label map), `loaded` is
`self._loaded`, `loadedAll` is `self._loaded_all`, `lastAccessed` is
`self._last_accessed` as a list ordered oldest first (Python dict insertion
order; `next(iter(...))` takes the head), `maxPersist` is `self._max_persist`,
`configMap` is `self._config` (per-label config lookup, modelled from the
spec as a total map with default). -/
structure Bus where
  labels : List String
  slots : List Slot
  loaded : List Bool
  loadedAll : Bool
  store : Option StoreRead
  configMap : String → Nat
  lastAccessed : List String
  maxPersist : Option Nat

/-- `self._last_accessed[label] = self._last_accessed.pop(label, None)`:
remove the label if present and re-insert it as most recent (list tail). -/
def touch (la : List String) (l : String) : List String :=
  (la.filter (fun x => x ≠ l)) ++ [l]

/-- The in-flight state of one `_update_series_cache_iloc` call: the local
copy `array` of the series values, the (in-place mutated) `_loaded` bitmap,
the LRU dict and the running `loaded_count`. -/
structure CState where
  arr : List Slot
  ld : List Bool
  la : List String
  cnt : Nat
  deriving Repr

/-- `self._last_accessed[label] = self._last_accessed.pop(label, None)` at
the head of the loop body, performed only when `max_persist` is active. -/
def touchStep (mp : Option Nat) (st : CState) (l : String) : CState :=
  if mp.isSome then { st with la := touch st.la l } else st

/-- The frame available for the current target: the captured series value if
it was a Frame reference, else the result of `self._store.read(label, ...)`
(`none` is the propagating lookup failure). -/
def frameOf (read : String → Option Frame) (t : String × Slot) : Option Frame :=
  match t.2 with
  | .loaded f => some f
  | .deferred => read t.1

/-- `if not self._loaded[idx]: array[idx] = frame; self._loaded[idx] = True;
loaded_count += 1`. -/
def loadStep (st : CState) (idx : Nat) (f : Frame) : CState :=
  if st.ld.getD idx false then st
  else { st with
         arr := st.arr.set idx (.loaded f),
         ld := st.ld.set idx true,
         cnt := st.cnt + 1 }

/-- `if max_persist_active and loaded_count > self._max_persist`: evict the
least recently used label (`next(iter(self._last_accessed))`, the oldest),
clearing its bitmap entry and restoring the sentinel in the local array.
The `[] => st` arm is unreachable: the current label was touched at the head
of the loop body, so the LRU is never empty at the eviction point. -/
def evictStep (labels : List String) (mp : Option Nat) (st : CState) : CState :=
  match mp with
  | none => st
  | some k =>
      if k < st.cnt then
        match st.la with
        | [] => st
        | h :: rest =>
            let ridx := labels.indexOf h
            { arr := st.arr.set ridx Slot.deferred,
              ld := st.ld.set ridx false,
              la := rest,
              cnt := st.cnt - 1 }
      else st

/-- One iteration of the `for label, frame in targets.items()` loop of
`_update_series_cache_iloc`: touch the LRU position, resolve the frame
(reading from the store if the captured slot is the sentinel; a failure
aborts the whole access, keeping the bitmap/LRU mutations made so far but
not the local array), publish the frame into the local array if the position
is not loaded, then evict if the running count exceeds the ceiling. -/
def processTarget (read : String → Option Frame) (labels : List String)
    (mp : Option Nat) (st : CState) (t : String × Slot) :
    Except (String × CState) CState :=
  let st1 := touchStep mp st t.1
  match frameOf read t with
  | none => .error (t.1, st1)
  | some f => .ok (evictStep labels mp (loadStep st1 (labels.indexOf t.1) f))

/-- The whole target loop of `_update_series_cache_iloc`. -/
def processTargets (read : String → Option Frame) (labels : List String)
    (mp : Option Nat) (st : CState) :
    List (String × Slot) → Except (String × CState) CState
  | [] => .ok st
  | t :: ts =>
      match processTarget read labels mp st t with
      | .error e => .error e
      | .ok st2 => processTargets read labels mp st2 ts

/-- Result of a cache update: on error the carried `Bus` is the observable
post-failure state (bitmap and LRU mutations survive, the old values array
and `loadedAll` do). -/
inductive UpdRes where
  | ok (bus : Bus)
  | err (e : BusErr) (bus : Bus)

/-- `load = not self._loaded[key].all()`, short-circuited by `_loaded_all`. -/
def loadFlag (bus : Bus) (key : List Nat) : Bool :=
  if bus.loadedAll then false
  else !(key.all (fun i => bus.loaded.getD i false))

/-- `targets = self._series.iloc[key]` captured before the loop (label and
slot value per requested position, in the access's iteration order). -/
def targetsOf (bus : Bus) (key : List Nat) : List (String × Slot) :=
  key.map (fun i => (bus.labels.getD i "", bus.slots.getD i Slot.deferred))

/-- `self._store.read(label, config=self._config[label])`. -/
def readOf (rd : StoreRead) (bus : Bus) : String → Option Frame :=
  fun l => rd l (bus.configMap l)

/-- The LRU-only branch: touch every requested label in iteration order. -/
def touchAll (bus : Bus) (key : List Nat) : List String :=
  key.foldl (fun la i => touch la (bus.labels.getD i "")) bus.lastAccessed

/-- `Bus._update_series_cache_iloc`, with the iloc key given as the list of
positions in the access's iteration order (an `int` key behaves as the
singleton list). -/
def updateSeriesCacheIloc (bus : Bus) (key : List Nat) : UpdRes :=
  let mpActive := bus.maxPersist.isSome
  let load := loadFlag bus key
  if !load && !mpActive then .ok bus
  else if !load && mpActive then
    -- must update LRU position only
    .ok { bus with lastAccessed := touchAll bus key }
  else
    match bus.store with
    | none => .err .noStore bus
    | some rd =>
        match processTargets (readOf rd bus) bus.labels bus.maxPersist
            ⟨bus.slots, bus.loaded, bus.lastAccessed, bus.loaded.count true⟩
            (targetsOf bus key) with
        | .error (l, se) =>
            .err (.readFail l) { bus with loaded := se.ld, lastAccessed := se.la }
        | .ok se =>
            .ok { bus with
                  slots := se.arr,
                  loaded := se.ld,
                  lastAccessed := se.la,
                  loadedAll := se.ld.all (fun b => b) }

/-- `Bus._update_series_cache_all`: load everything (NULL_SLICE is the full
ascending position range). -/
def updateSeriesCacheAll (bus : Bus) : UpdRes :=
  if bus.loadedAll then .ok bus
  else updateSeriesCacheIloc bus (List.range bus.labels.length)

/-!  Construction (`Bus.__init__`). -/

/-- The one-time `gen()` iteration of `Bus.__init__` over the series items:
checks each label is a `str` and each value a `Frame` or `FrameDeferred`,
yields the residency bit per slot, and (when `max_persist` is active) seeds
`_last_accessed` with the already-loaded labels in input order.  The first
offending pair raises, as the generator is consumed in order. -/
def validatePairs (mpActive : Bool) :
    List (PyLabel × PyVal) →
    Except BusErr (List (String × Slot) × List Bool × List String)
  | [] => .ok ([], [], [])
  | (l, v) :: rest =>
      match l with
      | .str s =>
          match v with
          | .frame f =>
              match validatePairs mpActive rest with
              | .error e => .error e
              | .ok (ps, bs, la) =>
                  .ok ((s, .loaded f) :: ps, true :: bs,
                       if mpActive then s :: la else la)
          | .deferredMarker =>
              match validatePairs mpActive rest with
              | .error e => .error e
              | .ok (ps, bs, la) => .ok ((s, .deferred) :: ps, false :: bs, la)
          | .otherV c => .error (.initValNotFrame c)
      | _ => .error (.initLabelNotString l)

/-- `Bus.__init__`.  The duplicate-label rejection is modelled from the spec:
the ordered label map collaborator (`Series`/`Index`) requires unique labels
and is constructed before `Bus.__init__` runs its own validation.  Then the
label/value validation pass, then the `max_persist < already-loaded-count`
check (`ErrorInitBus`), then the Bus record is assembled; failure is atomic
(no partially built Bus is returned). -/
def busInitPy (pairs : List (PyLabel × PyVal)) (store : Option StoreRead)
    (cfg : String → Nat) (mp : Option Nat) : Except BusErr Bus :=
  if (pairs.map (fun p => p.1)).Nodup then
    match validatePairs mp.isSome pairs with
    | .error e => .error e
    | .ok (ps, bs, la) =>
        match mp with
        | some k =>
            if k < bs.count true then .error .initCeilingTooLow
            else .ok { labels := ps.map (fun p => p.1),
                       slots := ps.map (fun p => p.2),
                       loaded := bs,
                       loadedAll := bs.all (fun b => b),
                       store := store,
                       configMap := cfg,
                       lastAccessed := la,
                       maxPersist := mp }
        | none =>
            .ok { labels := ps.map (fun p => p.1),
                  slots := ps.map (fun p => p.2),
                  loaded := bs,
                  loadedAll := bs.all (fun b => b),
                  store := store,
                  configMap := cfg,
                  lastAccessed := la,
                  maxPersist := none }
  else .error .dupLabels

/-- `Bus._from_store`: a deferred series over the backend's labels. -/
def busFromStore (storeLabels : List String) (rd : StoreRead)
    (cfg : String → Nat) (mp : Option Nat) : Except BusErr Bus :=
  busInitPy (storeLabels.map (fun l => (PyLabel.str l, PyVal.deferredMarker)))
    (some rd) cfg mp

/-- Present a slot back as the construction-time value it round-trips to
(used when `_extract_iloc` hands the sliced series to `Bus.__init__`). -/
def pyOfSlot : Slot → PyVal
  | .deferred => .deferredMarker
  | .loaded f => .frame f

/-!  Extraction (`Bus._extract_iloc` / `Bus._extract_loc`). -/

/-- `Bus._extract_iloc` with a single-position key: run the cache update,
then return `self._series.values[key]` — the slot value after the update,
which under `max_persist = 0` can be the `FrameDeferred` sentinel itself. -/
def extractIlocSingle (bus : Bus) (i : Nat) : Except (BusErr × Bus) (Slot × Bus) :=
  match updateSeriesCacheIloc bus [i] with
  | .err e b => .error (e, b)
  | .ok b => .ok (b.slots.getD i Slot.deferred, b)

/-- `Bus._extract_iloc` with a multi-position key: run the cache update, then
build a new Bus from the sliced series, sharing store, config and
`max_persist` but running the full construction validation again (fresh
residency bitmap and LRU seed). -/
def extractIlocMulti (bus : Bus) (key : List Nat) :
    Except (BusErr × Bus) (Bus × Bus) :=
  match updateSeriesCacheIloc bus key with
  | .err e b => .error (e, b)
  | .ok b =>
      let pairs := key.map (fun i =>
        (PyLabel.str (b.labels.getD i ""), pyOfSlot (b.slots.getD i Slot.deferred)))
      match busInitPy pairs b.store b.configMap b.maxPersist with
      | .error e => .error (e, b)
      | .ok child => .ok (child, b)

/-- `Bus._extract_loc` with a single label: translate the label to a position
through the index (`loc_to_iloc`; unknown label is a lookup error), then
follow the positional path. -/
def extractLocSingle (bus : Bus) (l : String) : Except (BusErr × Bus) (Slot × Bus) :=
  if l ∈ bus.labels then extractIlocSingle bus (bus.labels.indexOf l)
  else .error (.keyErr l, bus)

/-- `Bus._extract_loc` with a list of labels, in the order given. -/
def extractLocMulti (bus : Bus) (ls : List String) :
    Except (BusErr × Bus) (Bus × Bus) :=
  if ls.all (fun l => l ∈ bus.labels) then
    extractIlocMulti bus (ls.map bus.labels.indexOf)
  else
    .error (.keyErr ((ls.filter (fun l => l ∉ bus.labels)).headD ""), bus)

/-!  Public accesses as state transitions on one Bus.

Every public access routes through `_update_series_cache_iloc` before
returning data; the effect of an access on the accessed Bus itself is that
cache update (`_extract_iloc` builds the returned child view from the
already-updated values without further mutation of `self`). -/

inductive Access where
  | locSingle (l : String)
  | locMulti (ls : List String)
  | ilocSingle (i : Nat)
  | ilocMulti (key : List Nat)
  | materializeAll
  deriving DecidableEq, Repr

/-- The mutation a public access performs on the accessed Bus. -/
def applyAccess (bus : Bus) : Access → UpdRes
  | .locSingle l =>
      if l ∈ bus.labels then updateSeriesCacheIloc bus [bus.labels.indexOf l]
      else .err (.keyErr l) bus
  | .locMulti ls =>
      if ls.all (fun x => x ∈ bus.labels) then
        updateSeriesCacheIloc bus (ls.map bus.labels.indexOf)
      else .err (.keyErr ((ls.filter (fun x => x ∉ bus.labels)).headD "")) bus
  | .ilocSingle i => updateSeriesCacheIloc bus [i]
  | .ilocMulti key => updateSeriesCacheIloc bus key
  | .materializeAll => updateSeriesCacheAll bus

def applyAccessList (bus : Bus) : List Access → UpdRes
  | [] => .ok bus
  | a :: as =>
      match applyAccess bus a with
      | .ok b2 => applyAccessList b2 as
      | .err e b2 => .err e b2

/-- Positional validity of an access against a label list (numpy raises on
out-of-range iloc keys before any Bus state is touched). -/
def AccessOk (labels : List String) : Access → Prop
  | .ilocSingle i => i < labels.length
  | .ilocMulti key => ∀ j ∈ key, j < labels.length
  | _ => True

/-!  Observables over the series (`Bus` descriptors). -/

/-- `Bus.values`: materialize everything, then hand back the values. -/
def busValues (bus : Bus) : Except (BusErr × Bus) (List Slot × Bus) :=
  match updateSeriesCacheAll bus with
  | .err e b => .error (e, b)
  | .ok b => .ok (b.slots, b)

/-- `Bus.items`: materialize everything, then pair labels with values. -/
def busItems (bus : Bus) : Except (BusErr × Bus) (List (String × Slot) × Bus) :=
  match updateSeriesCacheAll bus with
  | .err e b => .error (e, b)
  | .ok b => .ok (b.labels.zip b.slots, b)

/-- `Bus.nbytes`: total bytes of the *currently loaded* frames only — no
cache update is performed, a deferred slot contributes 0. -/
def busNbytes (bus : Bus) : Nat :=
  (bus.slots.map (fun s => match s with
    | .loaded f => f.nbytes
    | .deferred => 0)).sum

/-- `Bus.shapes`: the shape of each *currently loaded* frame — no cache
update is performed, a deferred slot yields `None`. -/
def busShapes (bus : Bus) : List (Option (Nat × Nat)) :=
  bus.slots.map (fun s => match s with
    | .loaded f => some f.shape
    | .deferred => none)

/-- `Bus.dtypes`: dtypes of the *currently loaded* frames reindexed over all
labels with a `None` fill — no cache update is performed. -/
def busDtypes (bus : Bus) : List (Option (List String)) :=
  if bus.loaded.any (fun b => b) = false then bus.labels.map (fun _ => none)
  else bus.slots.map (fun s => match s with
    | .loaded f => some f.dtypes
    | .deferred => none)

/-- Modelled from the spec: `Frame.equals` is structural equality between
Datasets, and the `FrameDeferred` sentinel is never equal to any Dataset. -/
def frameEqualsVal (f : Frame) (other : Slot) : Bool :=
  match other with
  | .loaded g => f = g
  | .deferred => false

/-- The pairwise frame comparison loop of `Bus.equals`: the receiver's value
of each pair is expected to be a loaded Frame; if (under a residency ceiling)
it is still the `FrameDeferred` sentinel, Python evaluates
`FrameDeferred.equals`, which does not exist — an AttributeError, modelled as
`.error ()`. The first unequal pair short-circuits to `False` exactly as the
`for` loop returns early. -/
def zipEquals : List Slot → List Slot → Except Unit Bool
  | [], _ => .ok true
  | _ :: _, [] => .ok true
  | s :: ss, o :: os =>
      match s with
      | .deferred => .error ()
      | .loaded f => if frameEqualsVal f o then zipEquals ss os else .ok false

/-- `Bus.equals` with the default comparison flags: materialize the receiver
only (`self._update_series_cache_all()`), compare lengths, then the index,
then zip the two raw value arrays pairwise.  The identity fast path
(`id(other) == id(self)`) has no counterpart for pure values and is omitted;
the theorems below concern distinct Bus objects, which take the full path. -/
def busEquals (bus other : Bus) : Except (BusErr × Bus) (Bool × Bus) :=
  match updateSeriesCacheAll bus with
  | .err e b => .error (e, b)
  | .ok b =>
      if b.labels.length ≠ other.labels.length then .ok (false, b)
      else if b.labels ≠ other.labels then .ok (false, b)
      else
        match zipEquals b.slots other.slots with
        | .error _ => .error (.attrErr, b)
        | .ok r => .ok (r, b)

/-!  Projections used to state closed concrete theorems (record fields of
`Bus` include functions, so whole-record equality is not decidable; these
expose the decidable observable parts of a result). -/

def UpdRes.loadedOf : UpdRes → List Bool
  | .ok b => b.loaded
  | .err _ b => b.loaded

def UpdRes.slotsOf : UpdRes → List Slot
  | .ok b => b.slots
  | .err _ b => b.slots

def UpdRes.laOf : UpdRes → List String
  | .ok b => b.lastAccessed
  | .err _ b => b.lastAccessed

def UpdRes.errOf : UpdRes → Option BusErr
  | .ok _ => none
  | .err e _ => some e

def UpdRes.busOf : UpdRes → Bus
  | .ok b => b
  | .err _ b => b

def initOk (r : Except BusErr Bus) : Bool :=
  match r with
  | .ok _ => true
  | .error _ => false

def initErrOf (r : Except BusErr Bus) : Option BusErr :=
  match r with
  | .ok _ => none
  | .error e => some e

def initLoadedOf (r : Except BusErr Bus) : Option (List Bool) :=
  match r with
  | .ok b => some b.loaded
  | .error _ => none

def extractValOf (r : Except (BusErr × Bus) (Slot × Bus)) : Option Slot :=
  match r with
  | .ok (s, _) => some s
  | .error _ => none

def extractLoadedOf (r : Except (BusErr × Bus) (Slot × Bus)) : Option (List Bool) :=
  match r with
  | .ok (_, b) => some b.loaded
  | .error _ => none

def equalsResultOf (r : Except (BusErr × Bus) (Bool × Bus)) : Option Bool :=
  match r with
  | .ok (x, _) => some x
  | .error _ => none

def equalsErrOf (r : Except (BusErr × Bus) (Bool × Bus)) : Option BusErr :=
  match r with
  | .ok _ => none
  | .error (e, _) => some e

/-!  The relational backend (src/static_frame/core/store_sqlite.py).

Datasets here are tabular with one index column (`index_depth = 1`) and
ordinary data columns (`columns_depth = 1`), the shape exercised by the
round-trip claim; cells are modelled by their stored byte text (sqlite rows
come back to the converters as bytes), and the `BOOLEAN` converter compares
the raw bytes against the fixed literal `_BYTES_ONE = b'1'`. -/

/-- The numpy dtype kinds distinguished by `_dtype_to_affinity_type`. -/
inductive NpDtype where
  | boolD   -- dtype == DTYPE_BOOL
  | strD    -- kind in DTYPE_STR_KIND
  | intD    -- kind in DTYPE_INT_KIND
  | floatD  -- kind in DTYPE_NAN_KIND
  | objD    -- anything else
  deriving DecidableEq, Repr

/-- `StoreSQLite._dtype_to_affinity_type`. -/
def dtypeToAffinityType : NpDtype → String
  | .boolD => "BOOLEAN"
  | .strD => "TEXT"
  | .intD => "INTEGER"
  | .floatD => "REAL"
  | .objD => "NONE"

/-- `StoreSQLite._BYTES_ONE`. -/
def BYTES_ONE : String := "1"

/-- A cell value of a dataset handled by the relational backend. -/
inductive SqlVal where
  | vb (b : Bool)
  | vi (n : Int)
  | vs (s : String)
  deriving DecidableEq, Repr

/-- A tabular dataset as the relational backend sees it: name, one index
column, data columns (names, dtypes and row-major cells).
Modelled from the spec: the Dataset collaborator exposes field names and
dtypes for index columns followed by data columns, and a row iterator in
field order (`Store.get_field_names_and_dtypes` / `Store._get_row_iterator`
live in the Store base class, outside the given sources). -/
structure SqlFrame where
  fname : String
  indexName : String
  indexDtype : NpDtype
  indexValues : List SqlVal
  colNames : List String
  colDtypes : List NpDtype
  rows : List (List SqlVal)
  deriving DecidableEq, Repr

/-- `Frame.shape` of such a dataset: (number of rows, number of data columns). -/
def SqlFrame.shape (f : SqlFrame) : Nat × Nat :=
  (f.rows.length, f.colNames.length)

/-- A value as the sqlite storage layer holds it: an integer-class value or
a text value (the only storage classes the embedded datasets produce). -/
inductive SqlStored where
  | sInt (n : Int)
  | sText (t : String)
  deriving DecidableEq, Repr

/-- How a cell reaches sqlite storage: booleans pass through the stock
bool→int adapter (True → 1, False → 0), numpy integers are adapted to plain
ints (`sqlite3.register_adapter(np.int64, int)` in `StoreSQLite.write`),
strings are stored as text. -/
def storeCell : SqlVal → SqlStored
  | .vb b => .sInt (if b then 1 else 0)
  | .vi n => .sInt n
  | .vs s => .sText s

/-- Does the raw byte text of a stored value equal the fixed literal
`_BYTES_ONE = b'1'`?  Under `detect_types=PARSE_DECLTYPES` a registered
converter receives the column value as its byte text; the byte text of a
stored integer equals the one-character literal "1" exactly when the
integer is 1. -/
def bytesEqOne : SqlStored → Bool
  | .sInt n => n = 1
  | .sText t => t = BYTES_ONE

/-- Decoding one stored cell given the declared column type, as
`Frame.from_sql` receives it under `detect_types=PARSE_DECLTYPES`: a
`BOOLEAN` column runs the converter registered in `StoreSQLite.read`
(`lambda x: x == self._BYTES_ONE`) on the byte text; columns without a
registered converter come back as their native storage value (`INTEGER` an
integer, `TEXT` the text). -/
def decodeCell (declared : String) (raw : SqlStored) : Option SqlVal :=
  if declared = "BOOLEAN" then some (.vb (bytesEqOne raw))
  else if declared = "INTEGER" then
    match raw with
    | .sInt n => some (.vi n)
    | .sText _ => none
  else if declared = "TEXT" then
    match raw with
    | .sText t => some (.vs t)
    | .sInt _ => none
  else
    match raw with
    | .sInt n => some (.vi n)
    | .sText t => some (.vs t)

/-- The declared-type → reconstructed-dtype direction of the affinity map. -/
def affinityToDtype (declared : String) : NpDtype :=
  if declared = "BOOLEAN" then .boolD
  else if declared = "INTEGER" then .intD
  else if declared = "TEXT" then .strD
  else if declared = "REAL" then .floatD
  else .objD

/-- One table of the backing sqlite file. -/
structure SqlTable where
  tname : String
  fieldNames : List String
  fieldTypes : List String
  primaryKey : List String
  rows : List (List SqlStored)
  deriving DecidableEq, Repr

/-- `StoreSQLite._frame_to_table` with `include_index` and `include_columns`
both true (their defaults): field names and affinity types for the index
column followed by the data columns, a primary key over the leading
index-depth fields, a `'None'` literal table name for an absent label, and
all rows inserted positionally in field order. -/
def frameToTable (label : Option String) (frame : SqlFrame) : SqlTable :=
  let lbl := match label with
    | none => "None"
    | some s => s
  let fieldNames := frame.indexName :: frame.colNames
  let fieldTypes := (frame.indexDtype :: frame.colDtypes).map dtypeToAffinityType
  { tname := lbl,
    fieldNames := fieldNames,
    fieldTypes := fieldTypes,
    primaryKey := fieldNames.take 1,
    rows := (frame.indexValues.zip frame.rows).map
      (fun p => (p.1 :: p.2).map storeCell) }

/-- `StoreSQLite.write`: persist every given (label, dataset) pair as one
table each, in order, in one connection scope. -/
def sqliteWrite (items : List (Option String × SqlFrame)) : List SqlTable :=
  items.map (fun p => frameToTable p.1 p.2)

/-- Reconstruction of a dataset from one table (`Frame.from_sql` on
`SELECT * from {label}` with `index_depth = 1`, `columns_depth = 1`, no
dtype overrides): the first field becomes the index, the rest the data
columns; every cell is decoded per its declared column type. -/
def tableToFrame (t : SqlTable) : Option SqlFrame :=
  match t.fieldNames, t.fieldTypes with
  | iname :: cnames, itype :: ctypes =>
      match t.rows.mapM (fun r =>
          match r with
          | [] => none
          | iv :: dvs =>
              match decodeCell itype iv with
              | none => none
              | some div =>
                  match (dvs.zip ctypes).mapM
                      (fun (p : SqlStored × String) => decodeCell p.2 p.1) with
                  | none => none
                  | some ddvs => some (div, ddvs)) with
      | none => none
      | some decRows =>
          some { fname := t.tname,
                 indexName := iname,
                 indexDtype := affinityToDtype itype,
                 indexValues := decRows.map
                   (fun (p : SqlVal × List SqlVal) => p.1),
                 colNames := cnames,
                 colDtypes := ctypes.map affinityToDtype,
                 rows := decRows.map (fun (p : SqlVal × List SqlVal) => p.2) }
  | _, _ => none

/-- `StoreSQLite.read`: select the whole named table (a missing table is the
lookup error, modelled as `none`) and reconstruct the dataset. -/
def sqliteRead (db : List SqlTable) (label : String) : Option SqlFrame :=
  match db.find? (fun t => t.tname = label) with
  | none => none
  | some t => tableToFrame t

/-!  Concrete fixtures used by the scenario theorems. -/

def cfg0 : String → Nat := fun _ => 0

def fA : Frame := { fid := 1, name := "a", nbytes := 8, shape := (2, 2) }
def fB : Frame := { fid := 2, name := "b", nbytes := 16, shape := (3, 2) }
def fC : Frame := { fid := 3, name := "c", nbytes := 24, shape := (4, 2) }

/-- A three-label backend whose reads all succeed. -/
def rd3 : StoreRead := fun l _ =>
  if l = "a" then some fA else if l = "b" then some fB
  else if l = "c" then some fC else none

/-- The Bus built from `rd3` over labels a, b, c with ceiling 1. -/
def busABC : Bus :=
  { labels := ["a", "b", "c"], slots := [.deferred, .deferred, .deferred],
    loaded := [false, false, false], loadedAll := false,
    store := some rd3, configMap := cfg0, lastAccessed := [], maxPersist := some 1 }

/-- A single-label Bus from `rd3` with ceiling 0. -/
def busA0 : Bus :=
  { labels := ["a"], slots := [.deferred], loaded := [false], loadedAll := false,
    store := some rd3, configMap := cfg0, lastAccessed := [], maxPersist := some 0 }

/-- A backend whose read succeeds for a and fails for b. -/
def rdBadB : StoreRead := fun l _ => if l = "a" then some fA else none

/-- The ceilingless two-label Bus over `rdBadB`. -/
def busAB3 : Bus :=
  { labels := ["a", "b"], slots := [.deferred, .deferred],
    loaded := [false, false], loadedAll := false,
    store := some rdBadB, configMap := cfg0, lastAccessed := [], maxPersist := none }

/-- A ceilingless single-label Bus over `rd3` with its slot deferred. -/
def busA5 : Bus :=
  { labels := ["a"], slots := [.deferred], loaded := [false], loadedAll := false,
    store := some rd3, configMap := cfg0, lastAccessed := [], maxPersist := none }

/-- A two-label Bus over `rd3` with ceiling 1 (receiver for the equals
counterexample). -/
def busABk1 : Bus :=
  { labels := ["a", "b"], slots := [.deferred, .deferred],
    loaded := [false, false], loadedAll := false,
    store := some rd3, configMap := cfg0, lastAccessed := [], maxPersist := some 1 }

/-- A Bus over the same labels whose slot for a is still the sentinel while b
holds exactly the persisted frame. -/
def otherAB : Bus :=
  { labels := ["a", "b"], slots := [.deferred, .loaded fB],
    loaded := [false, true], loadedAll := false,
    store := some rd3, configMap := cfg0, lastAccessed := [], maxPersist := none }

/-- The (3, 2) dataset with a boolean column true/false/true. -/
def frameA7 : SqlFrame :=
  { fname := "a", indexName := "idx", indexDtype := .intD,
    indexValues := [.vi 0, .vi 1, .vi 2],
    colNames := ["c0", "c1"], colDtypes := [.boolD, .intD],
    rows := [[.vb true, .vi 10], [.vb false, .vi 20], [.vb true, .vi 30]] }

/-- The (2, 2) all-integer dataset. -/
def frameB7 : SqlFrame :=
  { fname := "b", indexName := "idx", indexDtype := .intD,
    indexValues := [.vi 0, .vi 1],
    colNames := ["x", "y"], colDtypes := [.intD, .intD],
    rows := [[.vi 1, .vi 2], [.vi 3, .vi 4]] }

/-- The backing store after writing both datasets. -/
def db7 : List SqlTable := sqliteWrite [(some "a", frameA7), (some "b", frameB7)]

/-- A ceilingless two-label Bus over `rd3`, receiver of the equals theorem. -/
def busABn : Bus :=
  { labels := ["a", "b"], slots := [.deferred, .deferred],
    loaded := [false, false], loadedAll := false,
    store := some rd3, configMap := cfg0, lastAccessed := [], maxPersist := none }

/-- A five-label backend whose reads all succeed. -/
def rd5 : StoreRead := fun l _ =>
  if l = "a" then some fA else if l = "b" then some fB
  else if l = "c" then some fC
  else if l = "d" then some { fid := 4, name := "d" }
  else if l = "e" then some { fid := 5, name := "e" } else none

/-- A five-label Bus from `rd5` with ceiling 2 (the slicing scenario). -/
def busABCDE : Bus :=
  { labels := ["a", "b", "c", "d", "e"],
    slots := [.deferred, .deferred, .deferred, .deferred, .deferred],
    loaded := [false, false, false, false, false], loadedAll := false,
    store := some rd5, configMap := cfg0, lastAccessed := [],
    maxPersist := some 2 }

/-!  Concrete results referenced by the witness theorems. -/

def c1bus2 : Bus :=
  (applyAccessList busABC [Access.ilocSingle 0, Access.materializeAll]).busOf

def c3bus2 : Bus := (applyAccess busABC (Access.locSingle "a")).busOf

def c4bus2 : Bus := (applyAccess busAB3 (Access.ilocMulti [0, 1])).busOf

def c6child : Bus :=
  match extractIlocMulti busABCDE [1, 2] with
  | .ok (c, _) => c
  | .error _ => busABCDE

def c6parent : Bus :=
  match extractIlocMulti busABCDE [1, 2] with
  | .ok (_, p) => p
  | .error _ => busABCDE

def c10bus2 : Bus :=
  match busEquals busABn otherAB with
  | .ok (_, b) => b
  | .error (_, b) => b

/-!  Invariants. -/

/-- The number of resident slots: count of true entries of the bitmap. -/
def countLoaded (bus : Bus) : Nat := bus.loaded.count true

/-- A construction value that passes the Frame-or-FrameDeferred check. -/
def PyVal.wellKinded : PyVal → Bool
  | .otherV _ => false
  | _ => true

/-- Well-formedness of a Bus state, as established by construction and
preserved by every completed public operation (spec §3 invariants). -/
structure BusWf (bus : Bus) : Prop where
  len_slots : bus.slots.length = bus.labels.length
  nodup : bus.labels.Nodup
  coherent : bus.loaded = bus.slots.map Slot.isLoaded
  all_eq : bus.loadedAll = bus.loaded.all (fun b => b)
  la_nodup : bus.maxPersist.isSome = true → bus.lastAccessed.Nodup
  la_sub : bus.maxPersist.isSome = true → ∀ x ∈ bus.lastAccessed, x ∈ bus.labels
  la_mem : bus.maxPersist.isSome = true → ∀ x ∈ bus.labels,
    (x ∈ bus.lastAccessed ↔ bus.loaded.getD (bus.labels.indexOf x) false = true)
  cnt_le : ∀ k, bus.maxPersist = some k → countLoaded bus ≤ k

/-- The invariant carried through the target loop of the cache update. -/
structure CInv (labels : List String) (mp : Option Nat) (st : CState) : Prop where
  len_ld : st.ld.length = labels.length
  len_arr : st.arr.length = labels.length
  cnt_eq : st.cnt = st.ld.count true
  cnt_le : ∀ k, mp = some k → st.cnt ≤ k
  coh : ∀ i, i < labels.length →
    st.ld.getD i false = (st.arr.getD i Slot.deferred).isLoaded
  la_nodup : mp.isSome = true → st.la.Nodup
  la_sub : mp.isSome = true → ∀ x ∈ st.la, x ∈ labels
  la_iff : mp.isSome = true → ∀ i, i < labels.length →
    (st.ld.getD i false = true ↔ labels.getD i "" ∈ st.la)

/-!  Basic list lemmas used by the invariant proofs. -/

theorem getD_set_self {α : Type} (l : List α) (i : Nat) (x d : α)
    (h : i < l.length) : (l.set i x).getD i d = x := by
  induction l generalizing i with
  | nil => simp at h
  | cons a t ih =>
      cases i with
      | zero => rfl
      | succ j => simpa using ih j (by simpa using h)

theorem getD_set_ne {α : Type} (l : List α) (i j : Nat) (x d : α)
    (h : i ≠ j) : (l.set i x).getD j d = l.getD j d := by
  induction l generalizing i j with
  | nil => rfl
  | cons a t ih =>
      cases i with
      | zero =>
          cases j with
          | zero => exact absurd rfl h
          | succ j2 => rfl
      | succ i2 =>
          cases j with
          | zero => rfl
          | succ j2 => simpa using ih i2 j2 (by omega)

theorem getD_set_bool_false (l : List Bool) (i j : Nat)
    (h : l.getD i false = false) : (l.set j false).getD i false = false := by
  induction l generalizing i j with
  | nil => rfl
  | cons a t ih =>
      cases j with
      | zero =>
          cases i with
          | zero => rfl
          | succ i2 => simpa using h
      | succ j2 =>
          cases i with
          | zero => simpa using h
          | succ i2 => simpa using ih i2 j2 (by simpa using h)

theorem getD_set_bool_true (l : List Bool) (i j : Nat)
    (h : l.getD i false = true) : (l.set j true).getD i false = true := by
  induction l generalizing i j with
  | nil => simp at h
  | cons a t ih =>
      cases j with
      | zero =>
          cases i with
          | zero => rfl
          | succ i2 => simpa using h
      | succ j2 =>
          cases i with
          | zero => simpa using h
          | succ i2 => simpa using ih i2 j2 (by simpa using h)

theorem count_set_true (l : List Bool) (i : Nat) (h : i < l.length)
    (hf : l.getD i false = false) :
    (l.set i true).count true = l.count true + 1 := by
  induction l generalizing i with
  | nil => simp at h
  | cons a t ih =>
      cases i with
      | zero =>
          have ha : a = false := by simpa using hf
          subst ha
          simp [List.count_cons]
      | succ j =>
          have := ih j (by simpa using h) (by simpa using hf)
          simp [List.count_cons, this]
          omega

theorem count_set_false (l : List Bool) (i : Nat)
    (ht : l.getD i false = true) :
    (l.set i false).count true + 1 = l.count true := by
  induction l generalizing i with
  | nil => simp [List.getD] at ht
  | cons a t ih =>
      cases i with
      | zero =>
          have ha : a = true := by simpa using ht
          subst ha
          simp [List.count_cons]
      | succ j =>
          have := ih j (by simpa using ht)
          simp [List.count_cons]
          omega

theorem list_eq_of_getD {α : Type} (d : α) (l1 l2 : List α)
    (hlen : l1.length = l2.length)
    (h : ∀ i, i < l1.length → l1.getD i d = l2.getD i d) : l1 = l2 := by
  apply List.ext_getElem hlen
  intro i h1 h2
  have hi := h i h1
  rwa [List.getD_eq_getElem _ _ h1, List.getD_eq_getElem _ _ h2] at hi

theorem getD_map_const_false {α : Type} (xs : List α) (i : Nat) :
    (xs.map (fun _ => false)).getD i false = false := by
  induction xs generalizing i with
  | nil => rfl
  | cons a t ih =>
      cases i with
      | zero => rfl
      | succ j => exact ih j

theorem count_map_const_false {α : Type} (xs : List α) :
    (xs.map (fun _ => false)).count true = 0 := by
  induction xs with
  | nil => rfl
  | cons a t ih => simpa [List.count_cons] using ih

theorem touch_mem (la : List String) (l x : String) :
    x ∈ touch la l ↔ x ∈ la ∨ x = l := by
  simp only [touch, List.mem_append, List.mem_filter, List.mem_singleton,
    decide_eq_true_eq]
  by_cases hx : x = l
  · simp [hx]
  · simp [hx]

theorem touch_nodup (la : List String) (l : String) (h : la.Nodup) :
    (touch la l).Nodup := by
  simp only [touch]
  refine List.Nodup.append (h.filter _) (List.nodup_singleton l) ?_
  intro x hx hmem
  simp only [List.mem_filter, decide_eq_true_eq] at hx
  simp only [List.mem_singleton] at hmem
  exact hx.2 hmem

theorem touch_ne_nil (la : List String) (l : String) : touch la l ≠ [] := by
  simp [touch]

theorem getD_indexOf (l : List String) (a : String) (h : a ∈ l) :
    l.getD (l.indexOf a) "" = a := by
  have hlt : l.indexOf a < l.length := List.indexOf_lt_length.2 h
  rw [List.getD_eq_getElem l "" hlt]
  exact List.getElem_indexOf hlt

theorem indexOf_getD (l : List String) (i : Nat) (h : i < l.length)
    (nd : l.Nodup) : l.indexOf (l.getD i "") = i := by
  have hm : l.getD i "" ∈ l := by
    rw [List.getD_eq_getElem l "" h]
    exact List.getElem_mem h
  have hlt : l.indexOf (l.getD i "") < l.length := List.indexOf_lt_length.2 hm
  have heq : l.getD (l.indexOf (l.getD i "")) "" = l.getD i "" := getD_indexOf l _ hm
  have heq2 := (List.getD_eq_getElem l "" hlt).symm.trans
    (heq.trans (List.getD_eq_getElem l "" h))
  exact (nd.getElem_inj_iff).1 heq2

theorem getD_mem (l : List String) (i : Nat) (h : i < l.length) :
    l.getD i "" ∈ l := by
  rw [List.getD_eq_getElem l "" h]
  exact List.getElem_mem h

theorem nodup_getD_ne (l : List String) (i j : Nat) (hi : i < l.length)
    (hj : j < l.length) (nd : l.Nodup) (hne : i ≠ j) :
    l.getD i "" ≠ l.getD j "" := by
  intro heq
  rw [List.getD_eq_getElem l "" hi, List.getD_eq_getElem l "" hj] at heq
  exact hne ((nd.getElem_inj_iff).1 heq)

/-!  Invariant preservation through one iteration of the target loop. -/

theorem touchStep_none (st : CState) (l : String) : touchStep none st l = st := rfl

theorem touchStep_some (k : Nat) (st : CState) (l : String) :
    touchStep (some k) st l = { st with la := touch st.la l } := rfl

theorem loadStep_skip (st : CState) (idx : Nat) (f : Frame)
    (h : st.ld.getD idx false = true) : loadStep st idx f = st := by
  unfold loadStep
  rw [h]
  rfl

theorem loadStep_load (st : CState) (idx : Nat) (f : Frame)
    (h : st.ld.getD idx false = false) :
    loadStep st idx f =
      { st with
        arr := st.arr.set idx (Slot.loaded f),
        ld := st.ld.set idx true,
        cnt := st.cnt + 1 } := by
  unfold loadStep
  rw [h]
  rfl

theorem evictStep_none (labels : List String) (st : CState) :
    evictStep labels none st = st := rfl

theorem evictStep_noover (labels : List String) (k : Nat) (st : CState)
    (h : ¬ k < st.cnt) : evictStep labels (some k) st = st := by
  show (if k < st.cnt then _ else st) = st
  rw [if_neg h]

theorem evictStep_over (labels : List String) (k : Nat) (st : CState)
    (hd : String) (rest : List String) (hla : st.la = hd :: rest)
    (h : k < st.cnt) :
    evictStep labels (some k) st =
      { arr := st.arr.set (labels.indexOf hd) Slot.deferred,
        ld := st.ld.set (labels.indexOf hd) false,
        la := rest,
        cnt := st.cnt - 1 } := by
  show (if k < st.cnt then
        match st.la with
        | [] => st
        | hd2 :: rest2 =>
            { arr := st.arr.set (labels.indexOf hd2) Slot.deferred,
              ld := st.ld.set (labels.indexOf hd2) false,
              la := rest2,
              cnt := st.cnt - 1 }
      else st) = _
  rw [if_pos h, hla]

theorem processTarget_ok_inv (read : String → Option Frame)
    (labels : List String) (mp : Option Nat) (st st2 : CState)
    (t : String × Slot) (hnd : labels.Nodup) (ht : t.1 ∈ labels)
    (hinv : CInv labels mp st)
    (hok : processTarget read labels mp st t = .ok st2) :
    CInv labels mp st2 := by
  have hidx : labels.indexOf t.1 < labels.length := List.indexOf_lt_length.2 ht
  have hlab : labels.getD (labels.indexOf t.1) "" = t.1 := getD_indexOf labels t.1 ht
  cases hfr : frameOf read t with
  | none => simp [processTarget, hfr] at hok
  | some f =>
      simp only [processTarget, hfr, Except.ok.injEq] at hok
      subst hok
      cases mp with
      | none =>
          rw [touchStep_none]
          cases hld : st.ld.getD (labels.indexOf t.1) false with
          | true =>
              rw [loadStep_skip st _ f hld, evictStep_none]
              exact hinv
          | false =>
              rw [loadStep_load st _ f hld, evictStep_none]
              refine ⟨?_, ?_, ?_, ?_, ?_, ?_, ?_, ?_⟩
              · simpa [List.length_set] using hinv.len_ld
              · simpa [List.length_set] using hinv.len_arr
              · have h1 := count_set_true st.ld (labels.indexOf t.1)
                  (by rw [hinv.len_ld]; exact hidx) hld
                have h2 := hinv.cnt_eq
                simp only [h1]
                omega
              · intro k hk
                exact absurd hk (by simp)
              · intro i hi
                by_cases hij : i = labels.indexOf t.1
                · subst hij
                  rw [getD_set_self st.ld (labels.indexOf t.1) true false
                      (by rw [hinv.len_ld]; exact hi),
                    getD_set_self st.arr (labels.indexOf t.1) (Slot.loaded f)
                      Slot.deferred (by rw [hinv.len_arr]; exact hi)]
                  rfl
                · rw [getD_set_ne st.ld (labels.indexOf t.1) i true false
                      (fun h => hij h.symm),
                    getD_set_ne st.arr (labels.indexOf t.1) i (Slot.loaded f)
                      Slot.deferred (fun h => hij h.symm)]
                  exact hinv.coh i hi
              · intro h
                exact Bool.noConfusion h
              · intro h
                exact Bool.noConfusion h
              · intro h
                exact Bool.noConfusion h
      | some k =>
          have hsome : (Option.some k).isSome = true := rfl
          rw [touchStep_some]
          have hla1_nodup : (touch st.la t.1).Nodup :=
            touch_nodup st.la t.1 (hinv.la_nodup hsome)
          have hla1_sub : ∀ x ∈ touch st.la t.1, x ∈ labels := by
            intro x hx
            rcases (touch_mem st.la t.1 x).1 hx with h1 | h1
            · exact hinv.la_sub hsome x h1
            · exact h1 ▸ ht
          have ht1_mem : t.1 ∈ touch st.la t.1 :=
            (touch_mem st.la t.1 t.1).2 (Or.inr rfl)
          cases hld : st.ld.getD (labels.indexOf t.1) false with
          | true =>
              -- already loaded: no data mutation, only a recency touch
              rw [loadStep_skip { st with la := touch st.la t.1 }
                (labels.indexOf t.1) f hld]
              have hcnt : st.cnt ≤ k := hinv.cnt_le k rfl
              rw [evictStep_noover labels k { st with la := touch st.la t.1 }
                (by show ¬ k < st.cnt; omega)]
              refine ⟨hinv.len_ld, hinv.len_arr, hinv.cnt_eq, ?_, hinv.coh,
                fun _ => hla1_nodup, fun _ => hla1_sub, ?_⟩
              · intro k2 hk2
                cases hk2
                exact hinv.cnt_le k rfl
              · intro _ i hi
                simp only
                by_cases hij : i = labels.indexOf t.1
                · subst hij
                  rw [hld, hlab]
                  simpa using ht1_mem
                · have hne : labels.getD i "" ≠ t.1 := by
                    rw [← hlab]
                    exact nodup_getD_ne labels i _ hi hidx hnd hij
                  rw [touch_mem]
                  constructor
                  · intro hl
                    exact Or.inl ((hinv.la_iff hsome i hi).1 hl)
                  · intro hl
                    rcases hl with hl | hl
                    · exact (hinv.la_iff hsome i hi).2 hl
                    · exact absurd hl hne
          | false =>
              -- genuinely loading the target position
              rw [loadStep_load { st with la := touch st.la t.1 }
                (labels.indexOf t.1) f hld]
              have hlen2 : (st.ld.set (labels.indexOf t.1) true).length
                  = labels.length := by
                simpa [List.length_set] using hinv.len_ld
              have hcount2 : (st.ld.set (labels.indexOf t.1) true).count true
                  = st.ld.count true + 1 :=
                count_set_true st.ld _ (by rw [hinv.len_ld]; exact hidx) hld
              have hld2_iff : ∀ i, i < labels.length →
                  ((st.ld.set (labels.indexOf t.1) true).getD i false = true ↔
                    labels.getD i "" ∈ touch st.la t.1) := by
                intro i hi
                by_cases hij : i = labels.indexOf t.1
                · subst hij
                  rw [getD_set_self st.ld (labels.indexOf t.1) true false
                    (by rw [hinv.len_ld]; exact hi), hlab]
                  simpa using ht1_mem
                · rw [getD_set_ne st.ld (labels.indexOf t.1) i true false
                    (fun h => hij h.symm)]
                  have hne : labels.getD i "" ≠ t.1 := by
                    rw [← hlab]
                    exact nodup_getD_ne labels i _ hi hidx hnd hij
                  rw [touch_mem]
                  constructor
                  · intro hl
                    exact Or.inl ((hinv.la_iff hsome i hi).1 hl)
                  · intro hl
                    rcases hl with hl | hl
                    · exact (hinv.la_iff hsome i hi).2 hl
                    · exact absurd hl hne
              have hcoh2 : ∀ i, i < labels.length →
                  ((st.ld.set (labels.indexOf t.1) true).getD i false =
                   ((st.arr.set (labels.indexOf t.1) (Slot.loaded f)).getD i
                      Slot.deferred).isLoaded) := by
                intro i hi
                by_cases hij : i = labels.indexOf t.1
                · subst hij
                  rw [getD_set_self st.ld (labels.indexOf t.1) true false
                      (by rw [hinv.len_ld]; exact hi),
                    getD_set_self st.arr (labels.indexOf t.1) (Slot.loaded f)
                      Slot.deferred (by rw [hinv.len_arr]; exact hi)]
                  rfl
                · rw [getD_set_ne st.ld (labels.indexOf t.1) i true false
                      (fun h => hij h.symm),
                    getD_set_ne st.arr (labels.indexOf t.1) i (Slot.loaded f)
                      Slot.deferred (fun h => hij h.symm)]
                  exact hinv.coh i hi
              by_cases hover : k < st.cnt + 1
              · -- overshoot: evict the least recently used label
                obtain ⟨hd, rest, hla1⟩ :=
                  List.exists_cons_of_ne_nil (touch_ne_nil st.la t.1)
                rw [evictStep_over labels k
                  { arr := st.arr.set (labels.indexOf t.1) (Slot.loaded f),
                    ld := st.ld.set (labels.indexOf t.1) true,
                    la := touch st.la t.1,
                    cnt := st.cnt + 1 }
                  hd rest (by show touch st.la t.1 = hd :: rest; exact hla1)
                  (by show k < st.cnt + 1; exact hover)]
                have hhd_mem : hd ∈ touch st.la t.1 := by
                  rw [hla1]
                  exact List.mem_cons_self hd rest
                have hhd_lab : hd ∈ labels := hla1_sub hd hhd_mem
                have hridx : labels.indexOf hd < labels.length :=
                  List.indexOf_lt_length.2 hhd_lab
                have hlabr : labels.getD (labels.indexOf hd) "" = hd :=
                  getD_indexOf labels hd hhd_lab
                have hld2r : (st.ld.set (labels.indexOf t.1) true).getD
                    (labels.indexOf hd) false = true := by
                  rw [hld2_iff _ hridx, hlabr]
                  exact hhd_mem
                have hcountr : ((st.ld.set (labels.indexOf t.1) true).set
                    (labels.indexOf hd) false).count true + 1
                    = (st.ld.set (labels.indexOf t.1) true).count true :=
                  count_set_false _ _ hld2r
                have hnodup1 : (hd :: rest).Nodup := hla1 ▸ hla1_nodup
                refine ⟨?_, ?_, ?_, ?_, ?_, ?_, ?_, ?_⟩
                · simpa [List.length_set] using hinv.len_ld
                · simpa [List.length_set] using hinv.len_arr
                · have h3 := hinv.cnt_eq
                  simp only
                  omega
                · intro k2 hk2
                  cases hk2
                  have h4 := hinv.cnt_le k rfl
                  simp only
                  omega
                · intro i hi
                  by_cases hir : i = labels.indexOf hd
                  · subst hir
                    rw [getD_set_self (st.ld.set (labels.indexOf t.1) true)
                        (labels.indexOf hd) false false
                        (by rw [List.length_set, hinv.len_ld]; exact hi),
                      getD_set_self (st.arr.set (labels.indexOf t.1) (Slot.loaded f))
                        (labels.indexOf hd) Slot.deferred Slot.deferred
                        (by rw [List.length_set, hinv.len_arr]; exact hi)]
                    rfl
                  · rw [getD_set_ne (st.ld.set (labels.indexOf t.1) true)
                        (labels.indexOf hd) i false false (fun h => hir h.symm),
                      getD_set_ne (st.arr.set (labels.indexOf t.1) (Slot.loaded f))
                        (labels.indexOf hd) i Slot.deferred Slot.deferred
                        (fun h => hir h.symm)]
                    exact hcoh2 i hi
                · intro _
                  exact hnodup1.of_cons
                · intro _ x hx
                  exact hla1_sub x (by rw [hla1]; exact List.mem_cons_of_mem hd hx)
                · intro _ i hi
                  simp only
                  by_cases hir : i = labels.indexOf hd
                  · subst hir
                    rw [getD_set_self (st.ld.set (labels.indexOf t.1) true)
                        (labels.indexOf hd) false false
                        (by rw [List.length_set, hinv.len_ld]; exact hi), hlabr]
                    have hnr : hd ∉ rest := (List.nodup_cons.1 hnodup1).1
                    simp [hnr]
                  · rw [getD_set_ne (st.ld.set (labels.indexOf t.1) true)
                        (labels.indexOf hd) i false false (fun h => hir h.symm)]
                    have hne : labels.getD i "" ≠ hd := by
                      rw [← hlabr]
                      exact nodup_getD_ne labels i _ hi hridx hnd hir
                    have hiff := hld2_iff i hi
                    rw [hla1] at hiff
                    rw [hiff]
                    constructor
                    · intro hmem
                      rcases List.mem_cons.1 hmem with hmem | hmem
                      · exact absurd hmem hne
                      · exact hmem
                    · exact fun hmem => List.mem_cons_of_mem hd hmem
              · -- no overshoot
                rw [evictStep_noover labels k
                  { arr := st.arr.set (labels.indexOf t.1) (Slot.loaded f),
                    ld := st.ld.set (labels.indexOf t.1) true,
                    la := touch st.la t.1,
                    cnt := st.cnt + 1 }
                  (by show ¬ k < st.cnt + 1; exact hover)]
                refine ⟨hlen2, ?_, ?_, ?_, hcoh2, fun _ => hla1_nodup,
                  fun _ => hla1_sub, fun _ => hld2_iff⟩
                · simpa [List.length_set] using hinv.len_arr
                · have h2 := hinv.cnt_eq
                  simp only [hcount2]
                  omega
                · intro k2 hk2
                  cases hk2
                  simp only
                  omega


/-!  Lifting the invariant through the whole target loop, and the shape of
error results. -/

theorem processTargets_ok_inv (read : String → Option Frame)
    (labels : List String) (mp : Option Nat) (ts : List (String × Slot))
    (st st2 : CState) (hnd : labels.Nodup) (hts : ∀ t ∈ ts, t.1 ∈ labels)
    (hinv : CInv labels mp st)
    (hok : processTargets read labels mp st ts = .ok st2) :
    CInv labels mp st2 := by
  induction ts generalizing st with
  | nil =>
      simp only [processTargets, Except.ok.injEq] at hok
      exact hok ▸ hinv
  | cons t ts ih =>
      cases hpt : processTarget read labels mp st t with
      | error e => simp [processTargets, hpt] at hok
      | ok stm =>
          simp only [processTargets, hpt] at hok
          exact ih stm (fun t2 ht2 => hts t2 (List.mem_cons_of_mem t ht2))
            (processTarget_ok_inv read labels mp st stm t hnd
              (hts t (List.mem_cons_self t ts)) hinv hpt) hok

theorem touchStep_ld (mp : Option Nat) (st : CState) (l : String) :
    (touchStep mp st l).ld = st.ld := by
  unfold touchStep
  split <;> rfl

theorem touchStep_arr (mp : Option Nat) (st : CState) (l : String) :
    (touchStep mp st l).arr = st.arr := by
  unfold touchStep
  split <;> rfl

theorem touchStep_cnt (mp : Option Nat) (st : CState) (l : String) :
    (touchStep mp st l).cnt = st.cnt := by
  unfold touchStep
  split <;> rfl

theorem processTarget_error (read : String → Option Frame)
    (labels : List String) (mp : Option Nat) (st : CState) (t : String × Slot)
    (l : String) (se : CState)
    (he : processTarget read labels mp st t = .error (l, se)) :
    l = t.1 ∧ se.ld = st.ld ∧ se.arr = st.arr ∧ se.cnt = st.cnt ∧
    frameOf read t = none := by
  cases hfr : frameOf read t with
  | none =>
      simp only [processTarget, hfr, Except.error.injEq, Prod.mk.injEq] at he
      refine ⟨he.1.symm, ?_, ?_, ?_, rfl⟩
      · rw [← he.2, touchStep_ld]
      · rw [← he.2, touchStep_arr]
      · rw [← he.2, touchStep_cnt]
  | some f => simp [processTarget, hfr] at he

theorem processTargets_error_ex (read : String → Option Frame)
    (labels : List String) (mp : Option Nat) (ts : List (String × Slot))
    (st : CState) (l : String) (se : CState)
    (he : processTargets read labels mp st ts = .error (l, se)) :
    ∃ t ∈ ts, t.1 = l ∧ frameOf read t = none := by
  induction ts generalizing st with
  | nil => simp [processTargets] at he
  | cons t ts ih =>
      cases hpt : processTarget read labels mp st t with
      | error e =>
          simp only [processTargets, hpt, Except.error.injEq] at he
          obtain ⟨h1, _, _, _, h5⟩ :=
            processTarget_error read labels mp st t l se (by rw [hpt, he])
          exact ⟨t, List.mem_cons_self t ts, h1.symm, h5⟩
      | ok stm =>
          simp only [processTargets, hpt] at he
          obtain ⟨t2, ht2, h⟩ := ih stm he
          exact ⟨t2, List.mem_cons_of_mem t ht2, h⟩

theorem loadStep_keeps_false (st : CState) (idx : Nat) (f : Frame) (i : Nat)
    (hne : idx ≠ i) (h0 : st.ld.getD i false = false) :
    (loadStep st idx f).ld.getD i false = false := by
  unfold loadStep
  split
  · exact h0
  · simp only
    rw [getD_set_ne st.ld idx i true false hne]
    exact h0

theorem evictStep_keeps_false (labels : List String) (mp : Option Nat)
    (st : CState) (i : Nat) (h0 : st.ld.getD i false = false) :
    (evictStep labels mp st).ld.getD i false = false := by
  cases mp with
  | none => exact h0
  | some k =>
      by_cases hover : k < st.cnt
      · cases hla : st.la with
        | nil =>
            have : evictStep labels (some k) st = st := by
              show (if k < st.cnt then
                    match st.la with
                    | [] => st
                    | hd2 :: rest2 =>
                        { arr := st.arr.set (labels.indexOf hd2) Slot.deferred,
                          ld := st.ld.set (labels.indexOf hd2) false,
                          la := rest2,
                          cnt := st.cnt - 1 }
                  else st) = st
              rw [if_pos hover, hla]
            rw [this]
            exact h0
        | cons hd rest =>
            rw [evictStep_over labels k st hd rest hla hover]
            exact getD_set_bool_false st.ld i (labels.indexOf hd) h0
      · rw [evictStep_noover labels k st hover]
        exact h0

theorem evictStep_len (labels : List String) (mp : Option Nat) (st : CState) :
    (evictStep labels mp st).ld.length = st.ld.length ∧
    (evictStep labels mp st).arr.length = st.arr.length := by
  cases mp with
  | none => exact ⟨rfl, rfl⟩
  | some k =>
      by_cases hover : k < st.cnt
      · cases hla : st.la with
        | nil =>
            have : evictStep labels (some k) st = st := by
              show (if k < st.cnt then
                    match st.la with
                    | [] => st
                    | hd2 :: rest2 =>
                        { arr := st.arr.set (labels.indexOf hd2) Slot.deferred,
                          ld := st.ld.set (labels.indexOf hd2) false,
                          la := rest2,
                          cnt := st.cnt - 1 }
                  else st) = st
              rw [if_pos hover, hla]
            rw [this]
            exact ⟨rfl, rfl⟩
        | cons hd rest =>
            rw [evictStep_over labels k st hd rest hla hover]
            simp [List.length_set]
      · rw [evictStep_noover labels k st hover]
        exact ⟨rfl, rfl⟩

theorem loadStep_len (st : CState) (idx : Nat) (f : Frame) :
    (loadStep st idx f).ld.length = st.ld.length ∧
    (loadStep st idx f).arr.length = st.arr.length := by
  unfold loadStep
  split
  · exact ⟨rfl, rfl⟩
  · simp [List.length_set]

theorem processTarget_ok_len (read : String → Option Frame)
    (labels : List String) (mp : Option Nat) (st : CState) (t : String × Slot)
    (st2 : CState) (hok : processTarget read labels mp st t = .ok st2) :
    st2.ld.length = st.ld.length ∧ st2.arr.length = st.arr.length := by
  cases hfr : frameOf read t with
  | none => simp [processTarget, hfr] at hok
  | some f =>
      simp only [processTarget, hfr, Except.ok.injEq] at hok
      subst hok
      have h1 := evictStep_len labels mp (loadStep (touchStep mp st t.1) (labels.indexOf t.1) f)
      have h2 := loadStep_len (touchStep mp st t.1) (labels.indexOf t.1) f
      rw [touchStep_ld, touchStep_arr] at h2
      exact ⟨h1.1.trans h2.1, h1.2.trans h2.2⟩

theorem processTarget_keeps_false (read : String → Option Frame)
    (labels : List String) (mp : Option Nat) (slots0 : List Slot)
    (st : CState) (t : String × Slot) (i : Nat)
    (hnd : labels.Nodup) (hi : i < labels.length)
    (hslot : slots0.getD i Slot.deferred = Slot.deferred)
    (hread : read (labels.getD i "") = none)
    (hcons : ∃ j, j < labels.length ∧
      t = (labels.getD j "", slots0.getD j Slot.deferred))
    (h0 : st.ld.getD i false = false) :
    ∀ st2, processTarget read labels mp st t = .ok st2 →
      st2.ld.getD i false = false := by
  intro st2 hok
  obtain ⟨j, hj, htj⟩ := hcons
  cases hfr : frameOf read t with
  | none => simp [processTarget, hfr] at hok
  | some f =>
      simp only [processTarget, hfr, Except.ok.injEq] at hok
      subst hok
      have hji : j ≠ i := by
        intro hcontra
        subst hcontra
        rw [htj] at hfr
        simp only [frameOf, hslot] at hfr
        rw [hread] at hfr
        exact Option.noConfusion hfr
      have hidx : labels.indexOf t.1 = j := by
        rw [htj]
        exact indexOf_getD labels j hj hnd
      apply evictStep_keeps_false
      rw [hidx]
      apply loadStep_keeps_false _ _ _ _ hji
      rw [touchStep_ld]
      exact h0

theorem processTargets_keeps_false (read : String → Option Frame)
    (labels : List String) (mp : Option Nat) (slots0 : List Slot) (i : Nat)
    (hnd : labels.Nodup) (hi : i < labels.length)
    (hslot : slots0.getD i Slot.deferred = Slot.deferred)
    (hread : read (labels.getD i "") = none) :
    ∀ (ts : List (String × Slot)) (st : CState),
      (∀ t ∈ ts, ∃ j, j < labels.length ∧
        t = (labels.getD j "", slots0.getD j Slot.deferred)) →
      st.ld.getD i false = false →
      (∀ st2, processTargets read labels mp st ts = .ok st2 →
        st2.ld.getD i false = false) ∧
      (∀ l se, processTargets read labels mp st ts = .error (l, se) →
        se.ld.getD i false = false) := by
  intro ts
  induction ts with
  | nil =>
      intro st _ h0
      constructor
      · intro st2 hok
        simp only [processTargets, Except.ok.injEq] at hok
        exact hok ▸ h0
      · intro l se he
        simp [processTargets] at he
  | cons t ts ih =>
      intro st hts h0
      cases hpt : processTarget read labels mp st t with
      | error e =>
          constructor
          · intro st2 hok
            simp [processTargets, hpt] at hok
          · intro l se he
            simp only [processTargets, hpt, Except.error.injEq] at he
            obtain ⟨_, h2, _, _, _⟩ :=
              processTarget_error read labels mp st t l se (by rw [hpt, he])
            rw [h2]
            exact h0
      | ok stm =>
          have hstm : stm.ld.getD i false = false :=
            processTarget_keeps_false read labels mp slots0 st t i hnd hi
              hslot hread (hts t (List.mem_cons_self t ts)) h0 stm hpt
          have hrest := ih stm
            (fun t2 ht2 => hts t2 (List.mem_cons_of_mem t ht2)) hstm
          constructor
          · intro st2 hok
            simp only [processTargets, hpt] at hok
            exact hrest.1 st2 hok
          · intro l se he
            simp only [processTargets, hpt] at he
            exact hrest.2 l se he

theorem processTargets_total (read : String → Option Frame)
    (labels : List String) (mp : Option Nat) (ts : List (String × Slot))
    (hread : ∀ t ∈ ts, frameOf read t ≠ none) :
    ∀ st, ∃ st2, processTargets read labels mp st ts = .ok st2 := by
  induction ts with
  | nil => exact fun st => ⟨st, rfl⟩
  | cons t ts ih =>
      intro st
      cases hfr : frameOf read t with
      | none => exact absurd hfr (hread t (List.mem_cons_self t ts))
      | some f =>
          obtain ⟨st2, h2⟩ :=
            ih (fun t2 ht2 => hread t2 (List.mem_cons_of_mem t ht2))
              (evictStep labels mp (loadStep (touchStep mp st t.1)
                (labels.indexOf t.1) f))
          refine ⟨st2, ?_⟩
          simp only [processTargets, processTarget, hfr]
          exact h2

theorem processTarget_none_mono (read : String → Option Frame)
    (labels : List String) (st st2 : CState) (t : String × Slot) (i : Nat)
    (hok : processTarget read labels none st t = .ok st2)
    (h : st.ld.getD i false = true) : st2.ld.getD i false = true := by
  cases hfr : frameOf read t with
  | none => simp [processTarget, hfr] at hok
  | some f =>
      simp only [processTarget, hfr, Except.ok.injEq] at hok
      subst hok
      rw [touchStep_none, evictStep_none]
      unfold loadStep
      split
      · exact h
      · simp only
        exact getD_set_bool_true st.ld i (labels.indexOf t.1) h

theorem processTarget_none_pos (read : String → Option Frame)
    (labels : List String) (st st2 : CState) (t : String × Slot)
    (hlen : st.ld.length = labels.length) (ht : t.1 ∈ labels)
    (hok : processTarget read labels none st t = .ok st2) :
    st2.ld.getD (labels.indexOf t.1) false = true := by
  cases hfr : frameOf read t with
  | none => simp [processTarget, hfr] at hok
  | some f =>
      simp only [processTarget, hfr, Except.ok.injEq] at hok
      subst hok
      rw [touchStep_none, evictStep_none]
      unfold loadStep
      cases hld : st.ld.getD (labels.indexOf t.1) false with
      | true =>
          simpa using hld
      | false =>
          rw [if_neg Bool.false_ne_true]
          simp only
          exact getD_set_self st.ld (labels.indexOf t.1) true false
            (by rw [hlen]; exact List.indexOf_lt_length.2 ht)

theorem processTargets_none_mono (read : String → Option Frame)
    (labels : List String) (ts : List (String × Slot)) :
    ∀ (st st2 : CState) (i : Nat),
      processTargets read labels none st ts = .ok st2 →
      st.ld.getD i false = true → st2.ld.getD i false = true := by
  induction ts with
  | nil =>
      intro st st2 i hok h
      simp only [processTargets, Except.ok.injEq] at hok
      exact hok ▸ h
  | cons t ts ih =>
      intro st st2 i hok h
      cases hpt : processTarget read labels none st t with
      | error e => simp [processTargets, hpt] at hok
      | ok stm =>
          simp only [processTargets, hpt] at hok
          exact ih stm st2 i hok
            (processTarget_none_mono read labels st stm t i hpt h)

theorem processTargets_none_all (read : String → Option Frame)
    (labels : List String) (ts : List (String × Slot)) :
    ∀ (st st2 : CState), labels.Nodup → st.ld.length = labels.length →
      (∀ t ∈ ts, t.1 ∈ labels) →
      processTargets read labels none st ts = .ok st2 →
      ∀ t ∈ ts, st2.ld.getD (labels.indexOf t.1) false = true := by
  induction ts with
  | nil =>
      intro st st2 _ _ _ _ t ht
      exact absurd ht (List.not_mem_nil t)
  | cons t ts ih =>
      intro st st2 hnd hlen hts hok t2 ht2
      cases hpt : processTarget read labels none st t with
      | error e => simp [processTargets, hpt] at hok
      | ok stm =>
          simp only [processTargets, hpt] at hok
          have hlenm : stm.ld.length = labels.length :=
            (processTarget_ok_len read labels none st t stm hpt).1.trans hlen
          rcases List.mem_cons.1 ht2 with h2 | h2
          · subst h2
            exact processTargets_none_mono read labels ts stm st2 _ hok
              (processTarget_none_pos read labels st stm t2 hlen
                (hts t2 (List.mem_cons_self t2 ts)) hpt)
          · exact ih stm st2 hnd hlenm
              (fun t3 ht3 => hts t3 (List.mem_cons_of_mem t ht3)) hok t2 h2

theorem foldl_touch_inv (labels : List String) (key : List Nat) :
    ∀ la : List String, (∀ j ∈ key, labels.getD j "" ∈ la) →
      (∀ x, x ∈ key.foldl (fun acc i => touch acc (labels.getD i "")) la ↔
        x ∈ la) ∧
      (la.Nodup →
        (key.foldl (fun acc i => touch acc (labels.getD i "")) la).Nodup) := by
  induction key with
  | nil => exact fun la _ => ⟨fun x => Iff.rfl, fun h => h⟩
  | cons j key ih =>
      intro la h
      have h1 : labels.getD j "" ∈ la := h j (List.mem_cons_self j key)
      have hstep_mem : ∀ x, x ∈ touch la (labels.getD j "") ↔ x ∈ la := by
        intro x
        rw [touch_mem]
        constructor
        · rintro (hx | hx)
          · exact hx
          · exact hx ▸ h1
        · exact Or.inl
      obtain ⟨ihm, ihn⟩ := ih (touch la (labels.getD j ""))
        (fun j2 hj2 => (hstep_mem _).2 (h j2 (List.mem_cons_of_mem j hj2)))
      exact ⟨fun x => (ihm x).trans (hstep_mem x),
        fun hnd => ihn (touch_nodup la _ hnd)⟩

/-!  Bridging Bus well-formedness and the loop invariant. -/

theorem BusWf.len_loaded {bus : Bus} (hwf : BusWf bus) :
    bus.loaded.length = bus.labels.length := by
  rw [hwf.coherent, List.length_map]
  exact hwf.len_slots

theorem BusWf.coh_at {bus : Bus} (hwf : BusWf bus) (i : Nat)
    (hi : i < bus.labels.length) :
    bus.loaded.getD i false = (bus.slots.getD i Slot.deferred).isLoaded := by
  have h1 : i < bus.slots.length := by rw [hwf.len_slots]; exact hi
  have h2 : i < (bus.slots.map Slot.isLoaded).length := by
    rw [List.length_map]
    exact h1
  rw [hwf.coherent, List.getD_eq_getElem _ _ h2, List.getD_eq_getElem _ _ h1]
  simp [List.getElem_map]

theorem BusWf.la_iff_pos {bus : Bus} (hwf : BusWf bus)
    (hsome : bus.maxPersist.isSome = true) (i : Nat)
    (hi : i < bus.labels.length) :
    (bus.loaded.getD i false = true ↔
      bus.labels.getD i "" ∈ bus.lastAccessed) := by
  have hx := hwf.la_mem hsome (bus.labels.getD i "") (getD_mem bus.labels i hi)
  rw [indexOf_getD bus.labels i hi hwf.nodup] at hx
  exact hx.symm

theorem coherent_of_pos (arr : List Slot) (ld : List Bool) (n : Nat)
    (hl1 : ld.length = n) (hl2 : arr.length = n)
    (h : ∀ i, i < n → ld.getD i false = (arr.getD i Slot.deferred).isLoaded) :
    ld = arr.map Slot.isLoaded := by
  apply List.ext_getElem (by rw [hl1, List.length_map, hl2])
  intro i h1 h2
  have hi : i < n := by rw [← hl1]; exact h1
  have h3 : i < arr.length := by rw [hl2]; exact hi
  have hh := h i hi
  rw [List.getD_eq_getElem _ _ h1, List.getD_eq_getElem _ _ h3] at hh
  rw [hh]
  simp [List.getElem_map]

theorem la_mem_of_pos (labels la : List String) (ld : List Bool)
    (_hnd : labels.Nodup)
    (hpos : ∀ i, i < labels.length →
      (ld.getD i false = true ↔ labels.getD i "" ∈ la)) :
    ∀ x ∈ labels, (x ∈ la ↔ ld.getD (labels.indexOf x) false = true) := by
  intro x hx
  have h1 := hpos (labels.indexOf x) (List.indexOf_lt_length.2 hx)
  rw [getD_indexOf labels x hx] at h1
  exact h1.symm

theorem cinv_of_wf (bus : Bus) (hwf : BusWf bus) :
    CInv bus.labels bus.maxPersist
      ⟨bus.slots, bus.loaded, bus.lastAccessed, bus.loaded.count true⟩ := by
  refine ⟨hwf.len_loaded, hwf.len_slots, rfl, ?_, ?_,
    fun h => hwf.la_nodup h, fun h => hwf.la_sub h, ?_⟩
  · intro k hk
    exact hwf.cnt_le k hk
  · intro i hi
    exact hwf.coh_at i hi
  · intro hsome i hi
    exact hwf.la_iff_pos hsome i hi

theorem load_false_all (bus : Bus) (key : List Nat) (hwf : BusWf bus)
    (hkey : ∀ j ∈ key, j < bus.labels.length)
    (hload : loadFlag bus key = false) :
    ∀ j ∈ key, bus.loaded.getD j false = true := by
  intro j hj
  unfold loadFlag at hload
  by_cases hla : bus.loadedAll = true
  · have hall : bus.loaded.all (fun b => b) = true := by
      rw [← hwf.all_eq]
      exact hla
    have hjl : j < bus.loaded.length := by
      rw [hwf.len_loaded]
      exact hkey j hj
    have hmem : bus.loaded.getD j false ∈ bus.loaded := by
      rw [List.getD_eq_getElem _ _ hjl]
      exact List.getElem_mem hjl
    exact List.all_eq_true.1 hall _ hmem
  · rw [if_neg hla] at hload
    have hall : (key.all (fun i => bus.loaded.getD i false)) = true := by
      cases hsa : key.all (fun i => bus.loaded.getD i false)
      · rw [hsa] at hload
        simp at hload
      · rfl
    exact List.all_eq_true.1 hall j hj

/-!  Equations exposing the four branches of the cache update. -/

theorem updateCache_eq_noop (bus : Bus) (key : List Nat)
    (hl : loadFlag bus key = false) (hm : bus.maxPersist.isSome = false) :
    updateSeriesCacheIloc bus key = .ok bus := by
  unfold updateSeriesCacheIloc
  rw [hl, hm]
  rfl

theorem updateCache_eq_touch (bus : Bus) (key : List Nat)
    (hl : loadFlag bus key = false) (hm : bus.maxPersist.isSome = true) :
    updateSeriesCacheIloc bus key =
      .ok { bus with lastAccessed := touchAll bus key } := by
  unfold updateSeriesCacheIloc
  rw [hl, hm]
  rfl

theorem updateCache_eq_noStore (bus : Bus) (key : List Nat)
    (hl : loadFlag bus key = true) (hs : bus.store = none) :
    updateSeriesCacheIloc bus key = .err .noStore bus := by
  unfold updateSeriesCacheIloc
  rw [hl, hs]
  rfl

theorem updateCache_eq_load (bus : Bus) (key : List Nat) (rd : StoreRead)
    (hl : loadFlag bus key = true) (hs : bus.store = some rd) :
    updateSeriesCacheIloc bus key =
      match processTargets (readOf rd bus) bus.labels bus.maxPersist
          ⟨bus.slots, bus.loaded, bus.lastAccessed, bus.loaded.count true⟩
          (targetsOf bus key) with
      | .error (l, se) =>
          .err (.readFail l) { bus with loaded := se.ld, lastAccessed := se.la }
      | .ok se =>
          .ok { bus with
                slots := se.arr,
                loaded := se.ld,
                lastAccessed := se.la,
                loadedAll := se.ld.all (fun b => b) } := by
  unfold updateSeriesCacheIloc
  rw [hl, hs]
  rfl

/-!  Well-formedness preservation across a successful cache update. -/

theorem targetsOf_fst_mem (bus : Bus) (key : List Nat)
    (hkey : ∀ j ∈ key, j < bus.labels.length) :
    ∀ t ∈ targetsOf bus key, t.1 ∈ bus.labels := by
  intro t htm
  obtain ⟨j, hj, htj⟩ := List.mem_map.1 htm
  rw [← htj]
  exact getD_mem bus.labels j (hkey j hj)

theorem updateCache_ok_wf (bus : Bus) (key : List Nat) (bus2 : Bus)
    (hwf : BusWf bus) (hkey : ∀ j ∈ key, j < bus.labels.length)
    (hok : updateSeriesCacheIloc bus key = .ok bus2) :
    BusWf bus2 ∧ bus2.labels = bus.labels ∧ bus2.store = bus.store ∧
      bus2.maxPersist = bus.maxPersist ∧ bus2.configMap = bus.configMap := by
  cases hl : loadFlag bus key with
  | false =>
      cases hm : bus.maxPersist.isSome with
      | false =>
          rw [updateCache_eq_noop bus key hl hm] at hok
          simp only [UpdRes.ok.injEq] at hok
          subst hok
          exact ⟨hwf, rfl, rfl, rfl, rfl⟩
      | true =>
          rw [updateCache_eq_touch bus key hl hm] at hok
          simp only [UpdRes.ok.injEq] at hok
          subst hok
          have hmem : ∀ j ∈ key, bus.labels.getD j "" ∈ bus.lastAccessed := by
            intro j hj
            exact (hwf.la_iff_pos hm j (hkey j hj)).1
              (load_false_all bus key hwf hkey hl j hj)
          obtain ⟨hfm, hfn⟩ := foldl_touch_inv bus.labels key bus.lastAccessed hmem
          refine ⟨⟨hwf.len_slots, hwf.nodup, hwf.coherent, hwf.all_eq,
            fun _ => hfn (hwf.la_nodup hm), ?_, ?_, hwf.cnt_le⟩,
            rfl, rfl, rfl, rfl⟩
          · intro _ x hx
            exact hwf.la_sub hm x ((hfm x).1 hx)
          · intro _ x hx
            show x ∈ touchAll bus key ↔ _
            unfold touchAll
            rw [hfm x]
            exact hwf.la_mem hm x hx
  | true =>
      cases hs : bus.store with
      | none =>
          rw [updateCache_eq_noStore bus key hl hs] at hok
          exact absurd hok (by simp)
      | some rd =>
          rw [updateCache_eq_load bus key rd hl hs] at hok
          cases hpt : processTargets (readOf rd bus) bus.labels bus.maxPersist
              ⟨bus.slots, bus.loaded, bus.lastAccessed, bus.loaded.count true⟩
              (targetsOf bus key) with
          | error e =>
              rw [hpt] at hok
              obtain ⟨l, se⟩ := e
              exact absurd hok (by simp)
          | ok se =>
              rw [hpt] at hok
              simp only [UpdRes.ok.injEq] at hok
              subst hok
              have cinvf := processTargets_ok_inv (readOf rd bus) bus.labels
                bus.maxPersist (targetsOf bus key)
                ⟨bus.slots, bus.loaded, bus.lastAccessed, bus.loaded.count true⟩
                se hwf.nodup (targetsOf_fst_mem bus key hkey)
                (cinv_of_wf bus hwf) hpt
              refine ⟨⟨cinvf.len_arr, hwf.nodup,
                coherent_of_pos se.arr se.ld bus.labels.length cinvf.len_ld
                  cinvf.len_arr cinvf.coh, rfl,
                fun h => cinvf.la_nodup h, fun h => cinvf.la_sub h, ?_, ?_⟩,
                rfl, hs, rfl, rfl⟩
              · intro hsome x hx
                exact la_mem_of_pos bus.labels se.la se.ld hwf.nodup
                  (cinvf.la_iff hsome) x hx
              · intro k hk
                have h1 := cinvf.cnt_le k hk
                have h2 := cinvf.cnt_eq
                show se.ld.count true ≤ k
                omega

theorem targetsOf_cons (bus : Bus) (key : List Nat)
    (hkey : ∀ j ∈ key, j < bus.labels.length) :
    ∀ t ∈ targetsOf bus key, ∃ j, j < bus.labels.length ∧
      t = (bus.labels.getD j "", bus.slots.getD j Slot.deferred) := by
  intro t htm
  obtain ⟨j, hj, htj⟩ := List.mem_map.1 htm
  exact ⟨j, hkey j hj, htj.symm⟩

/-- A read failure mid-batch: the error state keeps the old slots entirely,
and for the failing label both the slot and the bitmap entry are unchanged
(still deferred, still unloaded). -/
theorem updateCache_err_read (bus : Bus) (key : List Nat) (l : String)
    (bus2 : Bus) (hwf : BusWf bus)
    (hkey : ∀ j ∈ key, j < bus.labels.length)
    (he : updateSeriesCacheIloc bus key = .err (.readFail l) bus2) :
    bus2.slots = bus.slots ∧ l ∈ bus.labels ∧
    bus.slots.getD (bus.labels.indexOf l) Slot.deferred = Slot.deferred ∧
    bus.loaded.getD (bus.labels.indexOf l) false = false ∧
    bus2.loaded.getD (bus.labels.indexOf l) false = false := by
  cases hl : loadFlag bus key with
  | false =>
      cases hm : bus.maxPersist.isSome with
      | false =>
          rw [updateCache_eq_noop bus key hl hm] at he
          exact absurd he (by simp)
      | true =>
          rw [updateCache_eq_touch bus key hl hm] at he
          exact absurd he (by simp)
  | true =>
      cases hs : bus.store with
      | none =>
          rw [updateCache_eq_noStore bus key hl hs] at he
          simp only [UpdRes.err.injEq] at he
          exact absurd he.1 (by simp)
      | some rd =>
          rw [updateCache_eq_load bus key rd hl hs] at he
          cases hpt : processTargets (readOf rd bus) bus.labels bus.maxPersist
              ⟨bus.slots, bus.loaded, bus.lastAccessed, bus.loaded.count true⟩
              (targetsOf bus key) with
          | ok se =>
              rw [hpt] at he
              exact absurd he (by simp)
          | error e =>
              obtain ⟨l2, se⟩ := e
              rw [hpt] at he
              simp only [UpdRes.err.injEq, BusErr.readFail.injEq] at he
              obtain ⟨hl2, hbus2⟩ := he
              subst hbus2
              rw [← hl2]
              obtain ⟨t, htm, ht1, hfr⟩ :=
                processTargets_error_ex (readOf rd bus) bus.labels
                  bus.maxPersist (targetsOf bus key) _ l2 se hpt
              obtain ⟨j, hj, htj⟩ := List.mem_map.1 htm
              have hlj : bus.labels.getD j "" = l2 := by
                rw [← ht1, ← htj]
              have hjlt : j < bus.labels.length := hkey j hj
              have hfr2 : (match bus.slots.getD j Slot.deferred with
                  | Slot.loaded f => some f
                  | Slot.deferred =>
                      readOf rd bus (bus.labels.getD j "")) = none := by
                have hfr3 := hfr
                rw [← htj] at hfr3
                exact hfr3
              have hslotj : bus.slots.getD j Slot.deferred = Slot.deferred := by
                cases hsj : bus.slots.getD j Slot.deferred with
                | deferred => rfl
                | loaded f =>
                    rw [hsj] at hfr2
                    exact absurd hfr2 (by simp)
              have hreadj : readOf rd bus (bus.labels.getD j "") = none := by
                rw [hslotj] at hfr2
                exact hfr2
              have hidxl : bus.labels.indexOf l2 = j := by
                rw [← hlj]
                exact indexOf_getD bus.labels j hjlt hwf.nodup
              have h0 : bus.loaded.getD j false = false := by
                rw [hwf.coh_at j hjlt, hslotj]
                rfl
              have hkf := (processTargets_keeps_false (readOf rd bus)
                bus.labels bus.maxPersist bus.slots j hwf.nodup hjlt hslotj
                hreadj (targetsOf bus key)
                ⟨bus.slots, bus.loaded, bus.lastAccessed, bus.loaded.count true⟩
                (targetsOf_cons bus key hkey) h0).2 l2 se hpt
              rw [hidxl]
              exact ⟨rfl, hlj ▸ getD_mem bus.labels j hjlt, hslotj, h0, hkf⟩

/-!  Public accesses preserve well-formedness. -/

theorem applyAccess_ok_wf (bus : Bus) (a : Access) (bus2 : Bus)
    (hwf : BusWf bus) (hak : AccessOk bus.labels a)
    (hok : applyAccess bus a = .ok bus2) :
    BusWf bus2 ∧ bus2.labels = bus.labels ∧ bus2.store = bus.store ∧
      bus2.maxPersist = bus.maxPersist ∧ bus2.configMap = bus.configMap := by
  cases a with
  | locSingle l =>
      simp only [applyAccess] at hok
      by_cases hmem : l ∈ bus.labels
      · rw [if_pos hmem] at hok
        refine updateCache_ok_wf bus [bus.labels.indexOf l] bus2 hwf ?_ hok
        intro j hj
        rw [List.mem_singleton] at hj
        subst hj
        exact List.indexOf_lt_length.2 hmem
      · rw [if_neg hmem] at hok
        exact absurd hok (by simp)
  | locMulti ls =>
      simp only [applyAccess] at hok
      by_cases hmem : ls.all (fun x => x ∈ bus.labels) = true
      · rw [if_pos hmem] at hok
        refine updateCache_ok_wf bus (ls.map bus.labels.indexOf) bus2 hwf ?_ hok
        intro j hj
        obtain ⟨x, hx, hxj⟩ := List.mem_map.1 hj
        rw [← hxj]
        exact List.indexOf_lt_length.2
          (by simpa using List.all_eq_true.1 hmem x hx)
      · rw [if_neg hmem] at hok
        exact absurd hok (by simp)
  | ilocSingle i =>
      refine updateCache_ok_wf bus [i] bus2 hwf ?_ hok
      intro j hj
      rw [List.mem_singleton] at hj
      subst hj
      exact hak
  | ilocMulti key =>
      exact updateCache_ok_wf bus key bus2 hwf hak hok
  | materializeAll =>
      simp only [applyAccess, updateSeriesCacheAll] at hok
      by_cases hla : bus.loadedAll = true
      · rw [if_pos hla] at hok
        simp only [UpdRes.ok.injEq] at hok
        subst hok
        exact ⟨hwf, rfl, rfl, rfl, rfl⟩
      · rw [if_neg hla] at hok
        refine updateCache_ok_wf bus (List.range bus.labels.length) bus2 hwf
          ?_ hok
        intro j hj
        exact List.mem_range.1 hj

theorem applyAccessList_ok_wf (as : List Access) :
    ∀ (bus bus2 : Bus), BusWf bus → (∀ a ∈ as, AccessOk bus.labels a) →
    applyAccessList bus as = .ok bus2 →
    BusWf bus2 ∧ bus2.labels = bus.labels ∧
      bus2.maxPersist = bus.maxPersist := by
  induction as with
  | nil =>
      intro bus bus2 hwf _ hok
      simp only [applyAccessList, UpdRes.ok.injEq] at hok
      subst hok
      exact ⟨hwf, rfl, rfl⟩
  | cons a as ih =>
      intro bus bus2 hwf hak hok
      cases hap : applyAccess bus a with
      | err e b => simp [applyAccessList, hap] at hok
      | ok bm =>
          simp only [applyAccessList, hap] at hok
          obtain ⟨hwfm, hlabm, _, hmpm, _⟩ :=
            applyAccess_ok_wf bus a bm hwf (hak a (List.mem_cons_self a as)) hap
          obtain ⟨hwf2, hlab2, hmp2⟩ := ih bm bus2 hwfm
            (by rw [hlabm]; exact fun a2 ha2 => hak a2 (List.mem_cons_of_mem a ha2))
            hok
          exact ⟨hwf2, hlab2.trans hlabm, hmp2.trans hmpm⟩

/-!  The freshly constructed deferred Bus. -/

theorem validatePairs_deferred (mpA : Bool) (ls : List String) :
    validatePairs mpA
      (ls.map (fun l => (PyLabel.str l, PyVal.deferredMarker))) =
      .ok (ls.map (fun l => (l, Slot.deferred)), ls.map (fun _ => false), []) := by
  induction ls with
  | nil => rfl
  | cons l ls ih => simp [validatePairs, ih]

theorem map_pair_fst {β : Type} (b : β) (ls : List String) :
    List.map ((fun (p : String × β) => p.1) ∘ fun l => (l, b)) ls = ls := by
  induction ls with
  | nil => rfl
  | cons x xs ih => simp only [List.map_cons, Function.comp_apply, ih]

theorem map_pair_snd {β : Type} (b : β) (ls : List String) :
    List.map ((fun (p : String × β) => p.2) ∘ fun l => (l, b)) ls =
      List.replicate ls.length b := by
  induction ls with
  | nil => rfl
  | cons x xs ih =>
      simp only [List.map_cons, Function.comp_apply, ih, List.length_cons,
        List.replicate_succ]

theorem busFromStore_ok (ls : List String) (rd : StoreRead)
    (cfg : String → Nat) (mp : Option Nat) (hnd : ls.Nodup) :
    busFromStore ls rd cfg mp = .ok
      { labels := ls,
        slots := ls.map (fun _ => Slot.deferred),
        loaded := ls.map (fun _ => false),
        loadedAll := (ls.map (fun _ => false)).all (fun b => b),
        store := some rd,
        configMap := cfg,
        lastAccessed := [],
        maxPersist := mp } := by
  unfold busFromStore busInitPy
  have hnd2 : (((ls.map (fun l => (PyLabel.str l, PyVal.deferredMarker))).map
      (fun p => p.1))).Nodup := by
    rw [List.map_map]
    exact List.Nodup.map (fun a b h => by injection h) hnd
  rw [if_pos hnd2, validatePairs_deferred]
  cases mp with
  | none =>
      simp [List.map_map]
      exact ⟨map_pair_fst Slot.deferred ls, map_pair_snd Slot.deferred ls⟩
  | some k =>
      simp [List.map_map, List.count_replicate]
      exact ⟨map_pair_fst Slot.deferred ls, map_pair_snd Slot.deferred ls⟩

theorem busFromStore_wf (ls : List String) (rd : StoreRead)
    (cfg : String → Nat) (mp : Option Nat) (bus : Bus) (hnd : ls.Nodup)
    (h : busFromStore ls rd cfg mp = .ok bus) :
    BusWf bus ∧ bus.labels = ls ∧ bus.maxPersist = mp ∧
      bus.loaded.count true = 0 := by
  rw [busFromStore_ok ls rd cfg mp hnd] at h
  simp only [Except.ok.injEq] at h
  subst h
  refine ⟨⟨?_, hnd, ?_, rfl, ?_, ?_, ?_, ?_⟩, rfl, rfl, ?_⟩
  · simp
  · rw [List.map_map]
    rfl
  · intro _
    exact List.nodup_nil
  · intro _ x hx
    exact absurd hx (List.not_mem_nil x)
  · intro _ x hx
    constructor
    · intro hmem
      exact absurd hmem (List.not_mem_nil x)
    · intro hgd
      rw [getD_map_const_false] at hgd
      exact absurd hgd (by simp)
  · intro k hk
    show (ls.map (fun _ => false)).count true ≤ k
    rw [count_map_const_false]
    omega
  · exact count_map_const_false ls

/-- Assemble well-formedness of a concrete Bus from decidable checks. -/
theorem busWf_mk (bus : Bus)
    (h1 : bus.slots.length = bus.labels.length)
    (h2 : bus.labels.Nodup)
    (h3 : bus.loaded = bus.slots.map Slot.isLoaded)
    (h4 : bus.loadedAll = bus.loaded.all (fun b => b))
    (h5 : bus.maxPersist.isSome = true → bus.lastAccessed.Nodup)
    (h6 : bus.maxPersist.isSome = true → ∀ x ∈ bus.lastAccessed, x ∈ bus.labels)
    (h7 : bus.maxPersist.isSome = true → ∀ x ∈ bus.labels,
      (x ∈ bus.lastAccessed ↔
        bus.loaded.getD (bus.labels.indexOf x) false = true))
    (h8 : match bus.maxPersist with
          | some k => bus.loaded.count true ≤ k
          | none => True) :
    BusWf bus := by
  refine ⟨h1, h2, h3, h4, h5, h6, h7, ?_⟩
  intro k hk
  rw [hk] at h8
  exact h8

/-- C1: for every Bus constructed from a backend with residency ceiling k,
after any finite sequence of public accesses (single-label, positional,
fancy, or full materialization) that completes without error, the number of
slots marked resident — the count of true entries of the residency bitmap —
is at most k. -/
theorem c1_residency_ceiling (storeLabels : List String) (rd : StoreRead)
    (cfg : String → Nat) (k : Nat) (bus bus2 : Bus) (as : List Access)
    (hnd : storeLabels.Nodup)
    (h0 : busFromStore storeLabels rd cfg (some k) = .ok bus)
    (hacc : ∀ a ∈ as, AccessOk storeLabels a)
    (hrun : applyAccessList bus as = .ok bus2) :
    countLoaded bus2 ≤ k := by
  obtain ⟨hwf, hlab, hmp, _⟩ :=
    busFromStore_wf storeLabels rd cfg (some k) bus hnd h0
  obtain ⟨hwf2, _, hmp2⟩ := applyAccessList_ok_wf as bus bus2 hwf
    (by rw [hlab]; exact hacc) hrun
  exact hwf2.cnt_le k (by rw [hmp2, hmp])

theorem c1_residency_ceiling_witness : countLoaded c1bus2 ≤ 1 :=
  c1_residency_ceiling ["a", "b", "c"] rd3 cfg0 1 busABC c1bus2
    [Access.ilocSingle 0, Access.materializeAll] (by decide) (by rfl)
    (by
      intro a ha
      rcases List.mem_cons.1 ha with rfl | ha
      · show (0 : Nat) < 3
        decide
      · rcases List.mem_cons.1 ha with rfl | ha
        · trivial
        · exact absurd ha (List.not_mem_nil a))
    (by rfl)

/-- C3 (amended): after every public Bus operation that completes without
error, position i of the residency bitmap is true iff position i of the map
holds a loaded Frame.  (As the counterexample shows, an operation that
terminates by propagating a backend read error can leave the bitmap marking
as resident a position whose published slot still holds the sentinel, so the
original claim's "including an operation that terminates by propagating a
backend read error" does not hold.) -/
theorem c3_amended_bitmap_coherence (bus : Bus) (a : Access) (bus2 : Bus)
    (hwf : BusWf bus) (hak : AccessOk bus.labels a)
    (hok : applyAccess bus a = .ok bus2) :
    ∀ i, i < bus2.labels.length →
      (bus2.loaded.getD i false = true ↔
        (bus2.slots.getD i Slot.deferred).isLoaded = true) := by
  obtain ⟨hwf2, _, _, _, _⟩ := applyAccess_ok_wf bus a bus2 hwf hak hok
  intro i hi
  rw [hwf2.coh_at i hi]

theorem c3_amended_witness :
    (c3bus2.loaded.getD 0 false = true ↔
      (c3bus2.slots.getD 0 Slot.deferred).isLoaded = true) :=
  c3_amended_bitmap_coherence busABC (Access.locSingle "a") c3bus2
    (busWf_mk busABC (by decide) (by decide) (by decide) (by decide)
      (by decide) (by decide) (by decide)
      (by show List.count true busABC.loaded ≤ 1; decide))
    trivial (by rfl) 0 (by decide)

/-- C3 counterexample: on the reachable two-label Bus over a backend whose
read of b fails, the batched access of both positions terminates with the
read error while the bitmap already marks position 0 resident, though the
published slot 0 still holds the sentinel — the claimed biconditional fails
after an error-terminated operation. -/
theorem c3_counterexample_error_desync :
    busFromStore ["a", "b"] rdBadB cfg0 none = .ok busAB3 ∧
    (applyAccess busAB3 (Access.ilocMulti [0, 1])).errOf =
      some (.readFail "b") ∧
    (applyAccess busAB3 (Access.ilocMulti [0, 1])).loadedOf = [true, false] ∧
    (applyAccess busAB3 (Access.ilocMulti [0, 1])).slotsOf =
      [Slot.deferred, Slot.deferred] :=
  ⟨rfl, rfl, rfl, rfl⟩

/-- C4: for every access whose cache update must load a deferred label, if
the backend read for that label fails, the error propagates to the caller of
the whole access, and the slot value and residency-bitmap entry for that
label are unchanged by the failed access: still deferred, still marked not
resident. -/
theorem c4_read_failure_no_corruption (bus : Bus) (a : Access) (l : String)
    (bus2 : Bus) (hwf : BusWf bus) (hak : AccessOk bus.labels a)
    (he : applyAccess bus a = .err (.readFail l) bus2) :
    bus2.slots = bus.slots ∧ l ∈ bus.labels ∧
    bus.slots.getD (bus.labels.indexOf l) Slot.deferred = Slot.deferred ∧
    bus.loaded.getD (bus.labels.indexOf l) false = false ∧
    bus2.loaded.getD (bus.labels.indexOf l) false = false := by
  cases a with
  | locSingle l2 =>
      simp only [applyAccess] at he
      by_cases hmem : l2 ∈ bus.labels
      · rw [if_pos hmem] at he
        refine updateCache_err_read bus [bus.labels.indexOf l2] l bus2 hwf
          ?_ he
        intro j hj
        rw [List.mem_singleton] at hj
        subst hj
        exact List.indexOf_lt_length.2 hmem
      · rw [if_neg hmem] at he
        simp only [UpdRes.err.injEq] at he
        exact absurd he.1 (by simp)
  | locMulti ls =>
      simp only [applyAccess] at he
      by_cases hmem : ls.all (fun x => x ∈ bus.labels) = true
      · rw [if_pos hmem] at he
        refine updateCache_err_read bus (ls.map bus.labels.indexOf) l bus2
          hwf ?_ he
        intro j hj
        obtain ⟨x, hx, hxj⟩ := List.mem_map.1 hj
        rw [← hxj]
        exact List.indexOf_lt_length.2
          (by simpa using List.all_eq_true.1 hmem x hx)
      · rw [if_neg hmem] at he
        simp only [UpdRes.err.injEq] at he
        exact absurd he.1 (by simp)
  | ilocSingle i =>
      refine updateCache_err_read bus [i] l bus2 hwf ?_ he
      intro j hj
      rw [List.mem_singleton] at hj
      subst hj
      exact hak
  | ilocMulti key =>
      exact updateCache_err_read bus key l bus2 hwf hak he
  | materializeAll =>
      simp only [applyAccess, updateSeriesCacheAll] at he
      by_cases hla : bus.loadedAll = true
      · rw [if_pos hla] at he
        exact absurd he (by simp)
      · rw [if_neg hla] at he
        exact updateCache_err_read bus (List.range bus.labels.length) l bus2
          hwf (fun j hj => List.mem_range.1 hj) he

theorem c4_witness :
    c4bus2.slots = busAB3.slots ∧ "b" ∈ busAB3.labels ∧
    busAB3.slots.getD (busAB3.labels.indexOf "b") Slot.deferred =
      Slot.deferred ∧
    busAB3.loaded.getD (busAB3.labels.indexOf "b") false = false ∧
    c4bus2.loaded.getD (busAB3.labels.indexOf "b") false = false :=
  c4_read_failure_no_corruption busAB3 (Access.ilocMulti [0, 1]) "b" c4bus2
    (busWf_mk busAB3 (by decide) (by decide) (by decide) (by decide)
      (by decide) (by decide) (by decide) (by trivial))
    (by
      refine fun j hj => ?_
      fin_cases hj <;> decide)
    (by rfl)

/-- C2: over a backend enumerating a, b, c with ceiling 1 and every slot
initially deferred: bus["a"] leaves resident exactly {a}; a subsequent
bus["b"] leaves exactly {b} with a evicted back to the sentinel; a subsequent
bus["a"] leaves exactly {a} with b evicted; and a subsequent full
materialization processing a, b, c in that order ends with resident exactly
{c}. -/
theorem c2_lru_scenario :
    busFromStore ["a", "b", "c"] rd3 cfg0 (some 1) = .ok busABC ∧
    (applyAccessList busABC [Access.locSingle "a"]).loadedOf =
      [true, false, false] ∧
    (applyAccessList busABC
      [Access.locSingle "a", Access.locSingle "b"]).loadedOf =
      [false, true, false] ∧
    (applyAccessList busABC
      [Access.locSingle "a", Access.locSingle "b"]).slotsOf.getD 0
        (Slot.loaded fA) = Slot.deferred ∧
    (applyAccessList busABC [Access.locSingle "a", Access.locSingle "b",
      Access.locSingle "a"]).loadedOf = [true, false, false] ∧
    (applyAccessList busABC [Access.locSingle "a", Access.locSingle "b",
      Access.locSingle "a"]).slotsOf.getD 1 (Slot.loaded fB) =
      Slot.deferred ∧
    (applyAccessList busABC [Access.locSingle "a", Access.locSingle "b",
      Access.locSingle "a", Access.materializeAll]).loadedOf =
      [false, false, true] :=
  ⟨rfl, rfl, rfl, rfl, rfl, rfl, rfl⟩

/-- C9: construction accepts max_persist = 0 when every slot is deferred —
the ceiling check rejects only a ceiling below the count of already-loaded
values — and on such a Bus a single-label access loads the frame (the store
does hold it), immediately evicts that very frame to satisfy the ceiling,
and hands the FrameDeferred sentinel back to the caller. -/
theorem c9_ceiling_zero :
    busFromStore ["a"] rd3 cfg0 (some 0) = .ok busA0 ∧
    initErrOf (busInitPy [(.str "a", .frame fA)] none cfg0 (some 0)) =
      some .initCeilingTooLow ∧
    rd3 "a" (cfg0 "a") = some fA ∧
    extractValOf (extractLocSingle busA0 "a") = some Slot.deferred ∧
    extractLoadedOf (extractLocSingle busA0 "a") = some [false] :=
  ⟨rfl, rfl, rfl, rfl, rfl⟩

/-- C7: writing the datasets a (shape (3,2), one boolean column holding
true/false/true) and b (shape (2,2), all-integer) to the relational backend
and reading each label back reproduces identical shape, dtypes equivalent
under the declared affinity mapping (the declared column types are BOOLEAN /
INTEGER as mapped), and exactly the same cell values, the boolean pattern
decoded by comparison against the fixed true byte literal. -/
theorem c7_sqlite_roundtrip :
    sqliteRead db7 "a" = some frameA7 ∧
    sqliteRead db7 "b" = some frameB7 ∧
    frameA7.shape = (3, 2) ∧
    frameB7.shape = (2, 2) ∧
    db7.map (fun t => t.fieldTypes) =
      [["INTEGER", "BOOLEAN", "INTEGER"],
       ["INTEGER", "INTEGER", "INTEGER"]] ∧
    frameA7.rows.map (fun r => r.getD 0 (SqlVal.vi 0)) =
      [SqlVal.vb true, SqlVal.vb false, SqlVal.vb true] ∧
    decodeCell "BOOLEAN" (storeCell (SqlVal.vb true)) =
      some (SqlVal.vb true) ∧
    decodeCell "BOOLEAN" (storeCell (SqlVal.vb false)) =
      some (SqlVal.vb false) ∧
    bytesEqOne (SqlStored.sText BYTES_ONE) = true :=
  ⟨by decide, by decide, rfl, rfl, rfl, rfl, by decide, by decide, rfl⟩

/-- C8 counterexample: the construction-time label check is only
`isinstance(label, str)`, so a Bus whose label is the EMPTY string passes
validation and construction succeeds — contradicting the claim that
construction fails for every label that is not a non-empty string. -/
theorem c8_counterexample_empty_string :
    initOk (busInitPy [(.str "", .deferredMarker)] none cfg0 none) = true ∧
    initErrOf (busInitPy [(.str "", .deferredMarker)] none cfg0 none) =
      none :=
  ⟨rfl, rfl⟩

theorem validatePairs_err_label (mpA : Bool) :
    ∀ (pre : List (PyLabel × PyVal)) (l : PyLabel) (v : PyVal)
      (post : List (PyLabel × PyVal)),
      (∀ p ∈ pre, p.1.isStr = true ∧ p.2.wellKinded = true) →
      l.isStr = false →
      validatePairs mpA (pre ++ (l, v) :: post) =
        .error (.initLabelNotString l) := by
  intro pre
  induction pre with
  | nil =>
      intro l v post _ hl
      cases l with
      | str ss => simp [PyLabel.isStr] at hl
      | intL n => rfl
      | otherL d => rfl
  | cons p pre ih =>
      intro l v post hpre hl
      obtain ⟨hstr, hwk⟩ := hpre p (List.mem_cons_self p pre)
      obtain ⟨ps, pv⟩ := p
      cases ps with
      | intL n => simp [PyLabel.isStr] at hstr
      | otherL d => simp [PyLabel.isStr] at hstr
      | str ss =>
          have hrec := ih l v post
            (fun q hq => hpre q (List.mem_cons_of_mem _ hq)) hl
          rw [List.cons_append]
          cases pv with
          | frame f => simp [validatePairs, hrec]
          | deferredMarker => simp [validatePairs, hrec]
          | otherV c => simp [PyVal.wellKinded] at hwk

theorem validatePairs_no_label_err (mpA : Bool) :
    ∀ (pairs : List (PyLabel × PyVal)) (lb : PyLabel),
      (∀ p ∈ pairs, p.1.isStr = true) →
      validatePairs mpA pairs ≠ .error (.initLabelNotString lb) := by
  intro pairs
  induction pairs with
  | nil =>
      intro lb _ h
      simp [validatePairs] at h
  | cons p rest ih =>
      intro lb hstr h
      obtain ⟨ps, pv⟩ := p
      have hps := hstr ⟨ps, pv⟩ (List.mem_cons_self _ rest)
      cases ps with
      | intL n => simp [PyLabel.isStr] at hps
      | otherL d => simp [PyLabel.isStr] at hps
      | str ss =>
          have hstr2 : ∀ p ∈ rest, p.1.isStr = true :=
            fun q hq => hstr q (List.mem_cons_of_mem _ hq)
          cases pv with
          | frame f =>
              cases hr : validatePairs mpA rest with
              | error e =>
                  simp only [validatePairs, hr, Except.error.injEq] at h
                  exact ih lb hstr2 (by rw [hr, h])
              | ok triple =>
                  obtain ⟨ps2, bs, la⟩ := triple
                  simp [validatePairs, hr] at h
          | deferredMarker =>
              cases hr : validatePairs mpA rest with
              | error e =>
                  simp only [validatePairs, hr, Except.error.injEq] at h
                  exact ih lb hstr2 (by rw [hr, h])
              | ok triple =>
                  obtain ⟨ps2, bs, la⟩ := triple
                  simp [validatePairs, hr] at h
          | otherV c =>
              simp only [validatePairs, Except.error.injEq] at h
              exact BusErr.noConfusion h

/-- C8 (amended): construction fails with an initialization error naming the
first offending label whenever some label is not a string (the integer 42,
say), atomically — no partially built Bus is returned — and the label-type
check passes precisely when every label is a string: the empty string is
accepted, since the source checks only `isinstance(label, str)`. -/
theorem c8_amended_label_validation :
    (∀ (pre : List (PyLabel × PyVal)) (l : PyLabel) (v : PyVal)
      (post : List (PyLabel × PyVal)) (store : Option StoreRead)
      (cfg : String → Nat) (mp : Option Nat),
      (((pre ++ (l, v) :: post).map (fun p => p.1)).Nodup) →
      (∀ p ∈ pre, p.1.isStr = true ∧ p.2.wellKinded = true) →
      l.isStr = false →
      busInitPy (pre ++ (l, v) :: post) store cfg mp =
        .error (.initLabelNotString l)) ∧
    (∀ (pairs : List (PyLabel × PyVal)) (store : Option StoreRead)
      (cfg : String → Nat) (mp : Option Nat) (lb : PyLabel),
      (∀ p ∈ pairs, p.1.isStr = true) →
      busInitPy pairs store cfg mp ≠ .error (.initLabelNotString lb)) := by
  constructor
  · intro pre l v post store cfg mp hnd hpre hl
    unfold busInitPy
    rw [if_pos hnd, validatePairs_err_label mp.isSome pre l v post hpre hl]
  · intro pairs store cfg mp lb hstr h
    unfold busInitPy at h
    by_cases hnd : (pairs.map (fun p => p.1)).Nodup
    · rw [if_pos hnd] at h
      cases hv : validatePairs mp.isSome pairs with
      | error e =>
          rw [hv] at h
          simp only [Except.error.injEq] at h
          exact validatePairs_no_label_err mp.isSome pairs lb hstr
            (by rw [hv, h])
      | ok triple =>
          obtain ⟨ps, bs, la⟩ := triple
          rw [hv] at h
          cases mp with
          | some k =>
              have h2 : (if k < bs.count true then
                  (Except.error BusErr.initCeilingTooLow : Except BusErr Bus)
                else Except.ok
                    { labels := ps.map (fun p => p.1),
                      slots := ps.map (fun p => p.2),
                      loaded := bs,
                      loadedAll := bs.all (fun b => b),
                      store := store,
                      configMap := cfg,
                      lastAccessed := la,
                      maxPersist := some k }) =
                  Except.error (BusErr.initLabelNotString lb) := h
              by_cases hc : k < bs.count true
              · rw [if_pos hc] at h2
                simp only [Except.error.injEq] at h2
                exact BusErr.noConfusion h2
              · rw [if_neg hc] at h2
                exact Except.noConfusion h2
          | none =>
              have h2 : (Except.ok
                    { labels := ps.map (fun p => p.1),
                      slots := ps.map (fun p => p.2),
                      loaded := bs,
                      loadedAll := bs.all (fun b => b),
                      store := store,
                      configMap := cfg,
                      lastAccessed := la,
                      maxPersist := none } : Except BusErr Bus) =
                  Except.error (BusErr.initLabelNotString lb) := h
              exact Except.noConfusion h2
    · rw [if_neg hnd] at h
      simp only [Except.error.injEq] at h
      exact BusErr.noConfusion h

theorem c8_amended_witness :
    busInitPy [(.str "x", .deferredMarker), (.intL 42, .deferredMarker)]
      none cfg0 none = .error (.initLabelNotString (.intL 42)) :=
  c8_amended_label_validation.1 [(.str "x", .deferredMarker)] (.intL 42)
    .deferredMarker [] none cfg0 none (by decide) (by decide) (by decide)

/-- After a successful full materialization of a ceilingless Bus, every
position is marked resident (no eviction can undo a load). -/
theorem updateCacheAll_none_loaded (bus bus2 : Bus) (hwf : BusWf bus)
    (hmp : bus.maxPersist = none)
    (h : updateSeriesCacheAll bus = .ok bus2) :
    ∀ i, i < bus.labels.length → bus2.loaded.getD i false = true := by
  unfold updateSeriesCacheAll at h
  by_cases hla : bus.loadedAll = true
  · rw [if_pos hla] at h
    simp only [UpdRes.ok.injEq] at h
    subst h
    intro i hi
    have hall : bus.loaded.all (fun b => b) = true := by
      rw [← hwf.all_eq]
      exact hla
    have hil : i < bus.loaded.length := by
      rw [hwf.len_loaded]
      exact hi
    exact List.all_eq_true.1 hall (bus.loaded.getD i false)
      (by rw [List.getD_eq_getElem _ _ hil]; exact List.getElem_mem hil)
  · rw [if_neg hla] at h
    cases hl : loadFlag bus (List.range bus.labels.length) with
    | false =>
        have hm : bus.maxPersist.isSome = false := by rw [hmp]; rfl
        rw [updateCache_eq_noop bus _ hl hm] at h
        simp only [UpdRes.ok.injEq] at h
        subst h
        intro i hi
        exact load_false_all bus (List.range bus.labels.length) hwf
          (fun j hj => List.mem_range.1 hj) hl i (List.mem_range.2 hi)
    | true =>
        cases hs : bus.store with
        | none =>
            rw [updateCache_eq_noStore bus _ hl hs] at h
            exact absurd h (by simp)
        | some rd =>
            rw [updateCache_eq_load bus _ rd hl hs] at h
            cases hpt : processTargets (readOf rd bus) bus.labels
                bus.maxPersist
                ⟨bus.slots, bus.loaded, bus.lastAccessed,
                  bus.loaded.count true⟩
                (targetsOf bus (List.range bus.labels.length)) with
            | error e =>
                obtain ⟨l, se⟩ := e
                rw [hpt] at h
                exact absurd h (by simp)
            | ok se =>
                rw [hpt] at h
                simp only [UpdRes.ok.injEq] at h
                subst h
                intro i hi
                rw [hmp] at hpt
                have hmem : (bus.labels.getD i "",
                    bus.slots.getD i Slot.deferred) ∈
                    targetsOf bus (List.range bus.labels.length) := by
                  unfold targetsOf
                  exact List.mem_map.2 ⟨i, List.mem_range.2 hi, rfl⟩
                have hall := processTargets_none_all (readOf rd bus)
                  bus.labels (targetsOf bus (List.range bus.labels.length))
                  ⟨bus.slots, bus.loaded, bus.lastAccessed,
                    bus.loaded.count true⟩
                  se hwf.nodup hwf.len_loaded
                  (targetsOf_fst_mem bus _ (fun j hj => List.mem_range.1 hj))
                  hpt _ hmem
                rw [indexOf_getD bus.labels i hi hwf.nodup] at hall
                exact hall

/-- C5 counterexample: on a Bus whose only slot is still deferred (reachable
directly from the backend), the byte-size, shape and dtype summaries report
0 / None / None without running any cache update — while materializing first
makes the byte-size 8 — so these operations do not observe every slot
Loaded, contradicting the claim. -/
theorem c5_counterexample_no_materialization :
    busFromStore ["a"] rd3 cfg0 none = .ok busA5 ∧
    busNbytes busA5 = 0 ∧
    busShapes busA5 = [none] ∧
    busDtypes busA5 = [none] ∧
    busNbytes ((updateSeriesCacheAll busA5).busOf) = 8 :=
  ⟨rfl, rfl, rfl, rfl, rfl⟩

/-- After a successful full materialization of a ceilingless Bus, every slot
of the published array is Loaded (slot form of `updateCacheAll_none_loaded`,
through the result's bitmap coherence). -/
theorem updateCacheAll_none_slots (bus b : Bus) (hwf : BusWf bus)
    (hmp : bus.maxPersist = none)
    (h : updateSeriesCacheAll bus = .ok b) :
    ∀ s ∈ b.slots, s.isLoaded = true := by
  obtain ⟨hwfb, hblab, _, _, _⟩ :=
    applyAccess_ok_wf bus .materializeAll b hwf trivial h
  have hld := updateCacheAll_none_loaded bus b hwf hmp h
  intro s hs
  obtain ⟨i, hil, hival⟩ := List.mem_iff_getElem.1 hs
  have hib : i < bus.labels.length := by
    rw [← hblab, ← hwfb.len_slots]
    exact hil
  have hco := hwfb.coh_at i (by rw [hblab]; exact hib)
  rw [List.getD_eq_getElem _ _ hil, hival] at hco
  rw [← hco]
  exact hld i hib

/-- When every receiver slot is Loaded, the pairwise comparison loop never
reaches the sentinel arm: it returns a Boolean. -/
theorem zipEquals_ok_of_loaded (ss : List Slot) :
    ∀ os : List Slot, (∀ s ∈ ss, s.isLoaded = true) →
      ∃ r, zipEquals ss os = .ok r := by
  induction ss with
  | nil => exact fun os _ => ⟨true, rfl⟩
  | cons s ss ih =>
      intro os hld
      cases os with
      | nil => exact ⟨true, rfl⟩
      | cons o os =>
          cases s with
          | deferred =>
              have h1 := hld Slot.deferred (by simp)
              simp [Slot.isLoaded] at h1
          | loaded f =>
              by_cases hfe : frameEqualsVal f o = true
              · obtain ⟨r, hr⟩ := ih os (fun x hx => hld x (by simp [hx]))
                exact ⟨r, by simp [zipEquals, hfe, hr]⟩
              · rw [Bool.not_eq_true] at hfe
                exact ⟨false, by simp [zipEquals, hfe]⟩

/-- The cache update fails only with a missing-store or a read-failure
error; no other error kind can come out of it. -/
theorem updateCache_err_shape (bus : Bus) (key : List Nat) (e : BusErr)
    (bus2 : Bus) (he : updateSeriesCacheIloc bus key = .err e bus2) :
    e = BusErr.noStore ∨ ∃ l, e = BusErr.readFail l := by
  cases hl : loadFlag bus key with
  | false =>
      cases hm : bus.maxPersist.isSome with
      | false =>
          rw [updateCache_eq_noop bus key hl hm] at he
          exact absurd he (by simp)
      | true =>
          rw [updateCache_eq_touch bus key hl hm] at he
          exact absurd he (by simp)
  | true =>
      cases hs : bus.store with
      | none =>
          rw [updateCache_eq_noStore bus key hl hs] at he
          simp only [UpdRes.err.injEq] at he
          left
          exact he.1.symm
      | some rd =>
          rw [updateCache_eq_load bus key rd hl hs] at he
          cases hpt : processTargets (readOf rd bus) bus.labels
              bus.maxPersist
              ⟨bus.slots, bus.loaded, bus.lastAccessed,
                bus.loaded.count true⟩
              (targetsOf bus key) with
          | error p =>
              obtain ⟨l, se⟩ := p
              rw [hpt] at he
              simp only [UpdRes.err.injEq] at he
              right
              exact ⟨l, he.1.symm⟩
          | ok se =>
              rw [hpt] at he
              exact absurd he (by simp)

/-- Error shape of the full materialization: same as the cache update's. -/
theorem updateCacheAll_err_shape (bus : Bus) (e : BusErr) (bus2 : Bus)
    (he : updateSeriesCacheAll bus = .err e bus2) :
    e = BusErr.noStore ∨ ∃ l, e = BusErr.readFail l := by
  unfold updateSeriesCacheAll at he
  by_cases hla : bus.loadedAll = true
  · rw [if_pos hla] at he
    exact absurd he (by simp)
  · rw [if_neg hla] at he
    exact updateCache_err_shape bus _ e bus2 he

/-- C5 (amended): bulk iteration (`values`, `items`) and structural equality
invoke the cache update over the complete position range first, so on a Bus
without a residency ceiling a successful call observes every slot Loaded —
every value of `values` is Loaded, every pair of `items` carries a Loaded
value, the receiver state a successful `equals` leaves behind is fully
Loaded, and `equals` can never fail on the sentinel comparison — while the
byte-size, shape and dtype summaries perform no cache update and report over
currently loaded frames only: the shape summary yields None exactly at the
deferred positions, and a Bus with every slot deferred reports 0 total bytes
and an all-None dtype table. -/
theorem c5_amended_summaries (bus : Bus)
    (hwf : BusWf bus) (hmp : bus.maxPersist = none) :
    (∀ vals bus2, busValues bus = .ok (vals, bus2) →
      ∀ s ∈ vals, s.isLoaded = true) ∧
    (∀ its bus2, busItems bus = .ok (its, bus2) →
      ∀ p ∈ its, (Prod.snd p).isLoaded = true) ∧
    (∀ other r bus2, busEquals bus other = .ok (r, bus2) →
      ∀ s ∈ bus2.slots, s.isLoaded = true) ∧
    (∀ other e bus2, busEquals bus other = .error (e, bus2) →
      e ≠ BusErr.attrErr) ∧
    (∀ i, i < bus.labels.length →
      ((busShapes bus).getD i none = none ↔
        bus.slots.getD i Slot.deferred = Slot.deferred)) ∧
    ((∀ s ∈ bus.slots, s = Slot.deferred) → busNbytes bus = 0) ∧
    ((∀ s ∈ bus.slots, s = Slot.deferred) →
      busDtypes bus = bus.labels.map (fun _ => none)) := by
  refine ⟨?_, ?_, ?_, ?_, ?_, ?_, ?_⟩
  · intro vals bus2 hv
    unfold busValues at hv
    cases hu : updateSeriesCacheAll bus with
    | err e b =>
        rw [hu] at hv
        exact absurd hv (by simp)
    | ok b =>
        rw [hu] at hv
        simp only [Except.ok.injEq, Prod.mk.injEq] at hv
        intro s hs
        rw [← hv.1] at hs
        exact updateCacheAll_none_slots bus b hwf hmp hu s hs
  · intro its bus2 hv
    unfold busItems at hv
    cases hu : updateSeriesCacheAll bus with
    | err e b =>
        rw [hu] at hv
        exact absurd hv (by simp)
    | ok b =>
        rw [hu] at hv
        simp only [Except.ok.injEq, Prod.mk.injEq] at hv
        intro p hp
        obtain ⟨pl, ps⟩ := p
        rw [← hv.1] at hp
        exact updateCacheAll_none_slots bus b hwf hmp hu ps
          (List.of_mem_zip hp).2
  · intro other r bus2 hv
    unfold busEquals at hv
    cases hu : updateSeriesCacheAll bus with
    | err e b =>
        rw [hu] at hv
        exact absurd hv (by simp)
    | ok b =>
        rw [hu] at hv
        have h2 : (if b.labels.length ≠ other.labels.length then
              (Except.ok (false, b) : Except (BusErr × Bus) (Bool × Bus))
            else if b.labels ≠ other.labels then .ok (false, b)
            else match zipEquals b.slots other.slots with
              | .error _ => .error (.attrErr, b)
              | .ok r0 => .ok (r0, b)) = .ok (r, bus2) := hv
        by_cases hlen : b.labels.length ≠ other.labels.length
        · rw [if_pos hlen] at h2
          simp only [Except.ok.injEq, Prod.mk.injEq] at h2
          rw [← h2.2]
          exact updateCacheAll_none_slots bus b hwf hmp hu
        · rw [if_neg hlen] at h2
          by_cases hlab : b.labels ≠ other.labels
          · rw [if_pos hlab] at h2
            simp only [Except.ok.injEq, Prod.mk.injEq] at h2
            rw [← h2.2]
            exact updateCacheAll_none_slots bus b hwf hmp hu
          · rw [if_neg hlab] at h2
            cases hz : zipEquals b.slots other.slots with
            | error u =>
                rw [hz] at h2
                exact absurd h2 (by simp)
            | ok r0 =>
                rw [hz] at h2
                simp only [Except.ok.injEq, Prod.mk.injEq] at h2
                rw [← h2.2]
                exact updateCacheAll_none_slots bus b hwf hmp hu
  · intro other e bus2 hv
    unfold busEquals at hv
    cases hu : updateSeriesCacheAll bus with
    | err e0 b =>
        rw [hu] at hv
        have h2 : (Except.error (e0, b) :
            Except (BusErr × Bus) (Bool × Bus)) = .error (e, bus2) := hv
        simp only [Except.error.injEq, Prod.mk.injEq] at h2
        rw [← h2.1]
        rcases updateCacheAll_err_shape bus e0 b hu with h | ⟨l, h⟩
        · rw [h]
          exact fun hc => BusErr.noConfusion hc
        · rw [h]
          exact fun hc => BusErr.noConfusion hc
    | ok b =>
        rw [hu] at hv
        have h2 : (if b.labels.length ≠ other.labels.length then
              (Except.ok (false, b) : Except (BusErr × Bus) (Bool × Bus))
            else if b.labels ≠ other.labels then .ok (false, b)
            else match zipEquals b.slots other.slots with
              | .error _ => .error (.attrErr, b)
              | .ok r0 => .ok (r0, b)) = .error (e, bus2) := hv
        by_cases hlen : b.labels.length ≠ other.labels.length
        · rw [if_pos hlen] at h2
          exact absurd h2 (by simp)
        · rw [if_neg hlen] at h2
          by_cases hlab : b.labels ≠ other.labels
          · rw [if_pos hlab] at h2
            exact absurd h2 (by simp)
          · rw [if_neg hlab] at h2
            obtain ⟨r0, hr0⟩ := zipEquals_ok_of_loaded b.slots other.slots
              (updateCacheAll_none_slots bus b hwf hmp hu)
            rw [hr0] at h2
            exact absurd h2 (by simp)
  · intro i hi
    have hisl : i < bus.slots.length := by
      rw [hwf.len_slots]
      exact hi
    have hish : i < (busShapes bus).length := by
      unfold busShapes
      rw [List.length_map]
      exact hisl
    unfold busShapes
    rw [List.getD_eq_getElem _ _ (by unfold busShapes at hish; exact hish),
      List.getD_eq_getElem _ _ hisl]
    rw [List.getElem_map]
    cases bus.slots[i] with
    | deferred => simp
    | loaded f => simp
  · intro hall
    unfold busNbytes
    apply List.sum_eq_zero
    intro x hx
    obtain ⟨sl, hsl, hxs⟩ := List.mem_map.1 hx
    rw [hall sl hsl] at hxs
    exact hxs.symm
  · intro hall
    have hany : bus.loaded.any (fun b => b) = false := by
      rw [hwf.coherent, List.any_eq_false]
      intro x hx
      obtain ⟨sl, hsl, hxs⟩ := List.mem_map.1 hx
      rw [hall sl hsl] at hxs
      rw [← hxs]
      simp [Slot.isLoaded]
    unfold busDtypes
    rw [if_pos hany]

theorem c5_amended_witness :
    (∀ vals bus2, busValues busA5 = .ok (vals, bus2) →
      ∀ s ∈ vals, s.isLoaded = true) ∧
    (∀ its bus2, busItems busA5 = .ok (its, bus2) →
      ∀ p ∈ its, (Prod.snd p).isLoaded = true) ∧
    (∀ other r bus2, busEquals busA5 other = .ok (r, bus2) →
      ∀ s ∈ bus2.slots, s.isLoaded = true) ∧
    (∀ other e bus2, busEquals busA5 other = .error (e, bus2) →
      e ≠ BusErr.attrErr) ∧
    (∀ i, i < busA5.labels.length →
      ((busShapes busA5).getD i none = none ↔
        busA5.slots.getD i Slot.deferred = Slot.deferred)) ∧
    ((∀ s ∈ busA5.slots, s = Slot.deferred) → busNbytes busA5 = 0) ∧
    ((∀ s ∈ busA5.slots, s = Slot.deferred) →
      busDtypes busA5 = busA5.labels.map (fun _ => none)) :=
  c5_amended_summaries busA5
    (busWf_mk busA5 (by decide) (by decide) (by decide) (by decide)
      (by decide) (by decide) (by decide) (by trivial))
    rfl

/-- If every receiver slot is loaded and the other side holds the sentinel at
some position, the pairwise comparison loop returns False (either at that
pair — the sentinel equals no Frame — or at an earlier unequal pair). -/
theorem zipEquals_false_at (ss : List Slot) :
    ∀ (os : List Slot) (i : Nat),
      (∀ j, j < ss.length → (ss.getD j Slot.deferred).isLoaded = true) →
      os.length = ss.length → i < ss.length →
      os.getD i Slot.deferred = Slot.deferred →
      zipEquals ss os = .ok false := by
  induction ss with
  | nil =>
      intro os i _ _ hi _
      simp at hi
  | cons sl ss ih =>
      intro os i hload hlen hi hdef
      cases os with
      | nil => simp at hlen
      | cons o os =>
          have hs0 : sl.isLoaded = true := by
            have := hload 0 (by simp)
            simpa using this
          obtain ⟨f, hf⟩ : ∃ f, sl = Slot.loaded f := by
            cases sl with
            | deferred => simp [Slot.isLoaded] at hs0
            | loaded g => exact ⟨g, rfl⟩
          subst hf
          cases i with
          | zero =>
              have ho : o = Slot.deferred := by simpa using hdef
              subst ho
              simp [zipEquals, frameEqualsVal]
          | succ j =>
              by_cases hfe : frameEqualsVal f o = true
              · have hrec := ih os j
                  (fun j2 hj2 => by
                    have := hload (j2 + 1) (by simpa using Nat.succ_lt_succ hj2)
                    simpa using this)
                  (by simpa using hlen) (by simpa using hi)
                  (by simpa using hdef)
                simp [zipEquals, hfe, hrec]
              · simp only [Bool.not_eq_true] at hfe
                simp [zipEquals, hfe]

/-- C10 counterexample: with a residency ceiling the receiver itself can
retain the sentinel after its own materialization (a evicted when b loads),
and the pairwise loop then evaluates `FrameDeferred.equals`, which does not
exist — the call raises an attribute error instead of returning False, even
though the other Bus (same labels, persisted data identical) holds the
sentinel in a slot. -/
theorem c10_counterexample_ceiling_receiver :
    busFromStore ["a", "b"] rd3 cfg0 (some 1) = .ok busABk1 ∧
    otherAB.labels = busABk1.labels ∧
    otherAB.slots.getD 0 Slot.deferred = Slot.deferred ∧
    rd3 "b" (cfg0 "b") = some fB ∧
    equalsErrOf (busEquals busABk1 otherAB) = some .attrErr ∧
    equalsResultOf (busEquals busABk1 otherAB) = none :=
  ⟨rfl, rfl, rfl, rfl, rfl, rfl⟩

/-- C10 (amended): Bus.equals fully materializes only the receiver, never
the other Bus, and compares each loaded receiver frame directly against the
other Bus's raw slot value; for a ceilingless receiver — whose
materialization leaves every slot Loaded — equal labels and identical
persisted data notwithstanding, a sentinel still held in any slot of the
other Bus makes equals return False.  (Under a ceiling the receiver can
itself retain sentinels after materialization and the comparison instead
raises an attribute error: see the counterexample.) -/
theorem c10_amended_equals_deferred (bus other : Bus) (r : Bool) (bus2 : Bus)
    (i : Nat) (hwf : BusWf bus) (hmp : bus.maxPersist = none)
    (hlab : other.labels = bus.labels)
    (hlen : other.slots.length = other.labels.length)
    (hi : i < other.slots.length)
    (hdef : other.slots.getD i Slot.deferred = Slot.deferred)
    (heq : busEquals bus other = .ok (r, bus2)) :
    r = false := by
  unfold busEquals at heq
  cases hu : updateSeriesCacheAll bus with
  | err e b =>
      rw [hu] at heq
      exact absurd heq (by simp)
  | ok b =>
      rw [hu] at heq
      have heq2 : (if b.labels.length ≠ other.labels.length then
            (Except.ok (false, b) : Except (BusErr × Bus) (Bool × Bus))
          else if b.labels ≠ other.labels then Except.ok (false, b)
          else match zipEquals b.slots other.slots with
            | Except.error _ => Except.error (BusErr.attrErr, b)
            | Except.ok r2 => Except.ok (r2, b)) = Except.ok (r, bus2) := heq
      obtain ⟨hwfb, hblab, _, _, _⟩ :=
        applyAccess_ok_wf bus .materializeAll b hwf trivial hu
      by_cases hl1 : b.labels.length ≠ other.labels.length
      · rw [if_pos hl1] at heq2
        simp only [Except.ok.injEq, Prod.mk.injEq] at heq2
        exact heq2.1.symm
      · rw [if_neg hl1] at heq2
        by_cases hl2 : b.labels ≠ other.labels
        · rw [if_pos hl2] at heq2
          simp only [Except.ok.injEq, Prod.mk.injEq] at heq2
          exact heq2.1.symm
        · rw [if_neg hl2] at heq2
          have hld := updateCacheAll_none_loaded bus b hwf hmp hu
          have hslotld : ∀ j, j < b.slots.length →
              (b.slots.getD j Slot.deferred).isLoaded = true := by
            intro j hj
            have hj2 : j < b.labels.length := by
              rw [← hwfb.len_slots]
              exact hj
            rw [← hwfb.coh_at j hj2]
            exact hld j (by rw [← hblab]; exact hj2)
          have hlen2 : other.slots.length = b.slots.length := by
            rw [hlen, hlab, ← hblab, hwfb.len_slots]
          have hzi : zipEquals b.slots other.slots = .ok false := by
            refine zipEquals_false_at b.slots other.slots i hslotld hlen2
              ?_ hdef
            rw [← hlen2]
            exact hi
          rw [hzi] at heq2
          simp only [Except.ok.injEq, Prod.mk.injEq] at heq2
          exact heq2.1.symm

theorem c10_amended_witness : false = false :=
  c10_amended_equals_deferred busABn otherAB false c10bus2 0
    (busWf_mk busABn (by decide) (by decide) (by decide) (by decide)
      (by decide) (by decide) (by decide) (by trivial))
    rfl rfl (by decide) (by decide) (by decide) (by rfl)

/-!  Inverting the construction of the sliced child Bus (C6). -/

theorem validatePairs_slots (mpA : Bool) (ps : List (String × Slot)) :
    validatePairs mpA (ps.map (fun p => (PyLabel.str p.1, pyOfSlot p.2))) =
      .ok (ps, ps.map (fun p => p.2.isLoaded),
        if mpA then (ps.filter (fun p => p.2.isLoaded)).map (fun p => p.1)
        else []) := by
  induction ps with
  | nil => cases mpA <;> rfl
  | cons p ps ih =>
      obtain ⟨l, sl⟩ := p
      cases sl with
      | deferred =>
          show (match validatePairs mpA
              (ps.map (fun p => (PyLabel.str p.1, pyOfSlot p.2))) with
            | Except.error e => Except.error e
            | Except.ok (ps2, bs, la) =>
                Except.ok ((l, Slot.deferred) :: ps2, false :: bs, la)) = _
          rw [ih]
          cases mpA <;> simp [Slot.isLoaded, List.filter_cons]
      | loaded f =>
          show (match validatePairs mpA
              (ps.map (fun p => (PyLabel.str p.1, pyOfSlot p.2))) with
            | Except.error e => Except.error e
            | Except.ok (ps2, bs, la) =>
                Except.ok ((l, Slot.loaded f) :: ps2, true :: bs,
                  if mpA then l :: la else la)) = _
          rw [ih]
          cases mpA <;> simp [Slot.isLoaded, List.filter_cons]

theorem busInitPy_slots_ok (ps : List (String × Slot))
    (store : Option StoreRead) (cfg : String → Nat) (mp : Option Nat)
    (child : Bus)
    (h : busInitPy (ps.map (fun p => (PyLabel.str p.1, pyOfSlot p.2)))
      store cfg mp = .ok child) :
    child.labels = ps.map (fun p => p.1) ∧
    child.slots = ps.map (fun p => p.2) ∧
    child.loaded = ps.map (fun p => p.2.isLoaded) ∧
    child.loadedAll = (ps.map (fun p => p.2.isLoaded)).all (fun b => b) ∧
    child.store = store ∧ child.configMap = cfg ∧ child.maxPersist = mp ∧
    child.lastAccessed = (if mp.isSome then
      (ps.filter (fun p => p.2.isLoaded)).map (fun p => p.1) else []) ∧
    (ps.map (fun p => p.1)).Nodup ∧
    (∀ k, mp = some k →
      (ps.map (fun p => p.2.isLoaded)).count true ≤ k) := by
  unfold busInitPy at h
  by_cases hnd : (((ps.map (fun p => (PyLabel.str p.1, pyOfSlot p.2))).map
      (fun p => p.1))).Nodup
  · rw [if_pos hnd, validatePairs_slots] at h
    have hndf : (ps.map (fun p => p.1)).Nodup := by
      rw [List.map_map] at hnd
      have hnd2 : (List.map (PyLabel.str ∘ (fun p => p.1)) ps).Nodup := hnd
      rw [← List.map_map] at hnd2
      exact hnd2.of_map PyLabel.str
    cases mp with
    | none =>
        have h2 : (Except.ok
            { labels := ps.map (fun p => p.1),
              slots := ps.map (fun p => p.2),
              loaded := ps.map (fun p => p.2.isLoaded),
              loadedAll := (ps.map (fun p => p.2.isLoaded)).all (fun b => b),
              store := store,
              configMap := cfg,
              lastAccessed := (if (none : Option Nat).isSome then
                (ps.filter (fun p => p.2.isLoaded)).map (fun p => p.1)
                else []),
              maxPersist := none } : Except BusErr Bus) = .ok child := h
        simp only [Except.ok.injEq] at h2
        subst h2
        refine ⟨rfl, rfl, rfl, rfl, rfl, rfl, rfl, rfl, hndf, ?_⟩
        intro k hk
        exact absurd hk (by simp)
    | some k =>
        have h2 : (if k < (ps.map (fun p => p.2.isLoaded)).count true then
            (Except.error BusErr.initCeilingTooLow : Except BusErr Bus)
          else Except.ok
            { labels := ps.map (fun p => p.1),
              slots := ps.map (fun p => p.2),
              loaded := ps.map (fun p => p.2.isLoaded),
              loadedAll := (ps.map (fun p => p.2.isLoaded)).all (fun b => b),
              store := store,
              configMap := cfg,
              lastAccessed := (if (some k).isSome then
                (ps.filter (fun p => p.2.isLoaded)).map (fun p => p.1)
                else []),
              maxPersist := some k }) = .ok child := h
        by_cases hc : k < (ps.map (fun p => p.2.isLoaded)).count true
        · rw [if_pos hc] at h2
          exact absurd h2 (by simp)
        · rw [if_neg hc] at h2
          simp only [Except.ok.injEq] at h2
          subst h2
          refine ⟨rfl, rfl, rfl, rfl, rfl, rfl, rfl, rfl, hndf, ?_⟩
          intro k2 hk2
          cases hk2
          omega
  · rw [if_neg hnd] at h
    exact absurd h (by simp)

theorem filter_map_mem_iff_aux (ps : List (String × Slot)) (x : String) :
    (x ∈ (ps.filter (fun p => p.2.isLoaded)).map (fun p => p.1)) ↔
      ∃ p ∈ ps, p.1 = x ∧ p.2.isLoaded = true := by
  simp only [List.mem_map, List.mem_filter]
  constructor
  · rintro ⟨q, ⟨hq1, hq2⟩, hq3⟩
    exact ⟨q, hq1, hq3, hq2⟩
  · rintro ⟨q, hq1, hq2, hq3⟩
    exact ⟨q, ⟨hq1, hq3⟩, hq2⟩

theorem mem_fst_unique (ps : List (String × Slot)) (x : String)
    (hnd : (ps.map (fun p => p.1)).Nodup) :
    ((∃ p ∈ ps, p.1 = x ∧ p.2.isLoaded = true) ↔
      (ps.map (fun p => p.2.isLoaded)).getD
        ((ps.map (fun p => p.1)).indexOf x) false = true) := by
  induction ps with
  | nil => simp
  | cons p ps ih =>
      obtain ⟨l, sl⟩ := p
      have hnd2 : (ps.map (fun p => p.1)).Nodup :=
        (List.nodup_cons.1 (by simpa using hnd)).2
      by_cases hxl : l = x
      · subst hxl
        simp only [List.map_cons]
        rw [List.indexOf_cons_self]
        have hlnot : l ∉ ps.map (fun p => p.1) :=
          (List.nodup_cons.1 (by simpa using hnd)).1
        constructor
        · rintro ⟨q, hq, hq1, hq2⟩
          rcases List.mem_cons.1 hq with rfl | hq
          · simpa using hq2
          · exact absurd (hq1 ▸ List.mem_map.2 ⟨q, hq, rfl⟩) hlnot
        · intro hl
          exact ⟨(l, sl), List.mem_cons_self _ _, rfl, by simpa using hl⟩
      · simp only [List.map_cons]
        rw [List.indexOf_cons_ne _ (fun h => hxl h)]
        have hstep : (sl.isLoaded :: ps.map (fun p => p.2.isLoaded)).getD
            ((ps.map (fun p => p.1)).indexOf x + 1) false =
            (ps.map (fun p => p.2.isLoaded)).getD
              ((ps.map (fun p => p.1)).indexOf x) false := rfl
        rw [hstep, ← ih hnd2]
        constructor
        · rintro ⟨q, hq, hq1, hq2⟩
          rcases List.mem_cons.1 hq with rfl | hq
          · exact absurd hq1 hxl
          · exact ⟨q, hq, hq1, hq2⟩
        · rintro ⟨q, hq, hq1, hq2⟩
          exact ⟨q, List.mem_cons_of_mem _ hq, hq1, hq2⟩

/-- C6: a multi-position slice returns a new Bus sharing the parent's
backend reference, ceiling value and configuration, while holding
independent residency and recency state rebuilt from the child's own sliced
slots (bitmap = per-slot loadedness, recency = the loaded labels in slice
order), and the child is itself well-formed.  In this state-passing
embedding the parent value handed back by the extraction is never modified
by subsequent operations on the child — each operation returns a new Bus —
mirroring the source, which copies the values array before mutating and
publishes a fresh Series (bus.py line 207/240). -/
theorem c6_slicing_shares_backend_independent_state (bus : Bus)
    (key : List Nat) (child bus2 : Bus) (hwf : BusWf bus)
    (hkey : ∀ j ∈ key, j < bus.labels.length)
    (hext : extractIlocMulti bus key = .ok (child, bus2)) :
    child.store = bus.store ∧ child.maxPersist = bus.maxPersist ∧
    child.configMap = bus.configMap ∧
    bus2.labels = bus.labels ∧ bus2.store = bus.store ∧
    bus2.maxPersist = bus.maxPersist ∧ BusWf bus2 ∧
    child.labels = key.map (fun j => bus2.labels.getD j "") ∧
    child.slots = key.map (fun j => bus2.slots.getD j Slot.deferred) ∧
    child.loaded = child.slots.map Slot.isLoaded ∧
    child.lastAccessed = (if bus.maxPersist.isSome then
      (((child.labels.zip child.slots).filter
        (fun p => p.2.isLoaded)).map (fun p => p.1)) else []) ∧
    BusWf child := by
  unfold extractIlocMulti at hext
  cases hu : updateSeriesCacheIloc bus key with
  | err e b =>
      rw [hu] at hext
      exact absurd hext (by simp)
  | ok b =>
      rw [hu] at hext
      have hext2 : (match busInitPy (key.map (fun i =>
          (PyLabel.str (b.labels.getD i ""),
            pyOfSlot (b.slots.getD i Slot.deferred)))) b.store b.configMap
          b.maxPersist with
        | Except.error e =>
            (Except.error (e, b) : Except (BusErr × Bus) (Bus × Bus))
        | Except.ok c2 => Except.ok (c2, b)) = .ok (child, bus2) := hext
      obtain ⟨hwfb, hblab, hbstore, hbmp, hbcfg⟩ :=
        updateCache_ok_wf bus key b hwf hkey hu
      cases hini : busInitPy (key.map (fun i =>
          (PyLabel.str (b.labels.getD i ""),
            pyOfSlot (b.slots.getD i Slot.deferred)))) b.store b.configMap
          b.maxPersist with
      | error e =>
          rw [hini] at hext2
          exact absurd hext2 (by simp)
      | ok c =>
          rw [hini] at hext2
          simp only [Except.ok.injEq, Prod.mk.injEq] at hext2
          obtain ⟨hc, hb2⟩ := hext2
          subst hc
          subst hb2
          have hini2 : busInitPy ((key.map (fun i =>
              (b.labels.getD i "", b.slots.getD i Slot.deferred))).map
              (fun p => (PyLabel.str p.1, pyOfSlot p.2))) b.store
              b.configMap b.maxPersist = .ok c := by
            rw [List.map_map]
            exact hini
          obtain ⟨h1, h2, h3, h4, h5, h6, h7, h8, h9, h10⟩ :=
            busInitPy_slots_ok (key.map (fun i =>
              (b.labels.getD i "", b.slots.getD i Slot.deferred)))
              b.store b.configMap b.maxPersist c hini2
          have hlabels : c.labels =
              key.map (fun j => b.labels.getD j "") := by
            rw [h1, List.map_map]
            rfl
          have hslots : c.slots =
              key.map (fun j => b.slots.getD j Slot.deferred) := by
            rw [h2, List.map_map]
            rfl
          have hzip : c.labels.zip c.slots =
              key.map (fun i =>
                (b.labels.getD i "", b.slots.getD i Slot.deferred)) := by
            rw [hlabels, hslots, List.zip_map']
          refine ⟨h5.trans hbstore, h7.trans hbmp, h6.trans hbcfg, hblab,
            hbstore, hbmp, hwfb, hlabels, hslots, ?_, ?_, ?_⟩
          · rw [h3, hslots]
            simp only [List.map_map]
            rfl
          · rw [h8, hzip, hbmp]
          · refine ⟨?_, ?_, ?_, ?_, ?_, ?_, ?_, ?_⟩
            · rw [h2, h1]
              simp
            · rw [h1]
              exact h9
            · rw [h3, h2]
              simp only [List.map_map]
              rfl
            · rw [h4, h3]
            · intro hsome
              rw [h8, if_pos (by rw [← h7]; exact hsome)]
              have hsubl : ((key.map (fun i =>
                  (b.labels.getD i "", b.slots.getD i Slot.deferred))).filter
                  (fun p => p.2.isLoaded)).map (fun p => p.1) |>.Sublist
                  ((key.map (fun i =>
                  (b.labels.getD i "", b.slots.getD i Slot.deferred))).map
                  (fun p => p.1)) :=
                (List.filter_sublist _).map _
              exact h9.sublist hsubl
            · intro hsome x hx
              rw [h8, if_pos (by rw [← h7]; exact hsome)] at hx
              obtain ⟨q, hq, hqx⟩ := List.mem_map.1 hx
              rw [h1]
              exact hqx ▸ List.mem_map.2 ⟨q, List.mem_of_mem_filter hq, rfl⟩
            · intro hsome x hx
              rw [h8, if_pos (by rw [← h7]; exact hsome)]
              rw [h1] at hx
              rw [h3, h1]
              exact (filter_map_mem_iff_aux _ x).trans
                (mem_fst_unique _ x h9)
            · intro k hk
              have h11 := h10 k (by rw [← h7]; exact hk)
              unfold countLoaded
              rw [h3]
              exact h11

theorem c6_witness :
    c6child.store = busABCDE.store ∧
    c6child.maxPersist = busABCDE.maxPersist ∧
    c6child.configMap = busABCDE.configMap ∧
    c6parent.labels = busABCDE.labels ∧
    c6parent.store = busABCDE.store ∧
    c6parent.maxPersist = busABCDE.maxPersist ∧ BusWf c6parent ∧
    c6child.labels = [1, 2].map (fun j => c6parent.labels.getD j "") ∧
    c6child.slots =
      [1, 2].map (fun j => c6parent.slots.getD j Slot.deferred) ∧
    c6child.loaded = c6child.slots.map Slot.isLoaded ∧
    c6child.lastAccessed = (if busABCDE.maxPersist.isSome then
      (((c6child.labels.zip c6child.slots).filter
        (fun p => p.2.isLoaded)).map (fun p => p.1)) else []) ∧
    BusWf c6child :=
  c6_slicing_shares_backend_independent_state busABCDE [1, 2] c6child
    c6parent
    (busWf_mk busABCDE (by decide) (by decide) (by decide) (by decide)
      (by decide) (by decide) (by decide)
      (by show List.count true busABCDE.loaded ≤ 2; decide))
    (by
      refine fun j hj => ?_
      fin_cases hj <;> decide)
    (by rfl)
end SF
